import Mathlib

/-!
# Verification of the CS640 overlay-network emulator stack

Shallow embedding of the Python sources (Lab2/emulator.py, Lab2/sender.py,
Lab3/emulator.py) together with proofs of the spec's testable properties.

Conventions of the embedding:
* Python `bytes` are `List Nat` with every entry `< 256`.
* `struct.pack`/`struct.unpack` with the `!` (big-endian, no padding) prefix
  become explicit base-256 arithmetic.
* A Python function that can raise (failed `assert`, `struct.error`,
  `KeyError`, `AttributeError` on `None`, …) returns `Option`; `none` models
  the exception.
* Wall-clock instants (`datetime.now()`) are `Nat` parameters; the pseudo
  random draw `random.randint(1, 100)` is a `Nat` parameter.
-/

namespace CS640

/-- Big-endian 2-byte encoding of a `u16` (`struct` format `H`). -/
def pack2 (n : Nat) : List Nat := [n / 256 % 256, n % 256]

/-- Big-endian 4-byte encoding of a `u32` (`struct` format `I`). -/
def pack4 (n : Nat) : List Nat :=
  [n / 16777216 % 256, n / 65536 % 256, n / 256 % 256, n % 256]

/-- Big-endian 2-byte decoding. -/
def read2 (a b : Nat) : Nat := a * 256 + b

/-- Big-endian 4-byte decoding. -/
def read4 (a b c d : Nat) : Nat := ((a * 256 + b) * 256 + c) * 256 + d

/-- First-match association-list lookup (a Python `dict` read). -/
def alookup {α β : Type} [DecidableEq α] : List (α × β) → α → Option β
  | [], _ => none
  | (k, v) :: rest, a => if k = a then some v else alookup rest a

/-- Association-list write (a Python `dict` assignment): replace the first
binding of the key, or append a fresh binding. -/
def aset {α β : Type} [DecidableEq α] : List (α × β) → α → β → List (α × β)
  | [], a, b => [(a, b)]
  | (k, v) :: rest, a, b =>
    if k = a then (a, b) :: rest else (k, v) :: aset rest a b

namespace Lab3

/-- TTL_MAX = 50 in Lab3/emulator.py. -/
def TTL_MAX : Nat := 50

/-- The Lab3 packet header, `struct` format `'!IHIHcIHI?'` (24 bytes).
Field order and widths follow `Header.__init__` / the format string. -/
structure Header where
  src_ip : Nat
  src_port : Nat
  dst_ip : Nat
  dst_port : Nat
  packet_type : Char
  seq_no : Nat
  ttl : Nat
  payload_length : Nat
  wrapped : Bool
deriving DecidableEq, Repr

/-- `struct.calcsize('!IHIHcIHI?')`: 4+2+4+2+1+4+2+4+1 = 24 bytes. -/
def Header.header_size : Nat := 24

/-- `Header.to_bytes`: `struct.pack` of the fields in order.  `struct.pack`
raises on an out-of-range integer and on a `c` argument that is not a single
byte (a code point ≥ 128 encodes to more than one UTF-8 byte), modelled by
`none`.  The source's `assert self.src_ip != 0` compares an `IPv4Address`
with the `int` 0 and therefore always passes; it imposes no condition. -/
def Header.to_bytes (h : Header) : Option (List Nat) :=
  if h.src_ip < 4294967296 ∧ h.src_port < 65536 ∧ h.dst_ip < 4294967296 ∧
     h.dst_port < 65536 ∧ h.packet_type.toNat < 128 ∧ h.seq_no < 4294967296 ∧
     h.ttl < 65536 ∧ h.payload_length < 4294967296 then
    some (pack4 h.src_ip ++ pack2 h.src_port ++ pack4 h.dst_ip ++ pack2 h.dst_port ++
          [h.packet_type.toNat] ++ pack4 h.seq_no ++ pack2 h.ttl ++
          pack4 h.payload_length ++ [if h.wrapped then 1 else 0])
  else none

/-- `Header.from_bytes`: asserts the slice has length `header_size`, unpacks
big-endian, decodes the `packet_type` byte as UTF-8 (a lone byte ≥ 128 is not
valid UTF-8 and raises) and coerces byte 23 with `bool(...)`.  Inputs that
are not genuine byte strings (an entry ≥ 256) are rejected. -/
def Header.from_bytes (bs : List Nat) : Option Header :=
  match bs with
  | [a0, a1, a2, a3, p0, p1, b0, b1, b2, b3, q0, q1, t,
     s0, s1, s2, s3, l0, l1, c0, c1, c2, c3, w] =>
    if a0 < 256 ∧ a1 < 256 ∧ a2 < 256 ∧ a3 < 256 ∧ p0 < 256 ∧ p1 < 256 ∧
       b0 < 256 ∧ b1 < 256 ∧ b2 < 256 ∧ b3 < 256 ∧ q0 < 256 ∧ q1 < 256 ∧
       t < 128 ∧ s0 < 256 ∧ s1 < 256 ∧ s2 < 256 ∧ s3 < 256 ∧ l0 < 256 ∧
       l1 < 256 ∧ c0 < 256 ∧ c1 < 256 ∧ c2 < 256 ∧ c3 < 256 ∧ w < 256 then
      some { src_ip := read4 a0 a1 a2 a3
             src_port := read2 p0 p1
             dst_ip := read4 b0 b1 b2 b3
             dst_port := read2 q0 q1
             packet_type := Char.ofNat t
             seq_no := read4 s0 s1 s2 s3
             ttl := read2 l0 l1
             payload_length := read4 c0 c1 c2 c3
             wrapped := w != 0 }
    else none
  | _ => none

/-- A well-formed Lab3 header as the spec describes it: a valid packet type,
nonzero source address, every field within its fixed width. -/
def Header.wellFormed (h : Header) : Prop :=
  h.packet_type ∈ ['R', 'D', 'E', 'A', 'L', 'T'] ∧
  h.src_ip ≠ 0 ∧ h.src_ip < 4294967296 ∧ h.src_port < 65536 ∧
  h.dst_ip < 4294967296 ∧ h.dst_port < 65536 ∧ h.seq_no < 4294967296 ∧
  h.ttl < 65536 ∧ h.payload_length < 4294967296

instance (h : Header) : Decidable h.wellFormed := by
  unfold Header.wellFormed; infer_instance

/-- A concrete well-formed header used to exhibit the size of the encoding. -/
def exampleHeader : Header :=
  { src_ip := 167772161, src_port := 5000, dst_ip := 167772162, dst_port := 6000,
    packet_type := 'T', seq_no := 7, ttl := 3, payload_length := 0, wrapped := true }

end Lab3

namespace Lab2

/-- HEADER_SIZE = 18 in Lab2/emulator.py (`struct` format `'!cIHIHIc'`). -/
def HEADER_SIZE : Nat := 18

/-- The Lab2 emulator header.  `priority` is transported as the ASCII byte of
a single decimal digit (`str(priority).encode()` / `int(one_byte)`). -/
structure Header where
  priority : Nat
  src_ip : Nat
  src_port : Nat
  dst_ip : Nat
  dst_port : Nat
  outer_length : Nat
  packet_type : Char
deriving DecidableEq, Repr

/-- `Header.from_bytes` for the Lab2 emulator: asserts an 18-byte slice,
unpacks `'!cIHIHIc'`.  `int(data_tuple[0])` parses the priority byte as an
ASCII decimal digit and raises on anything else, so the byte must be in
48..57; the `packet_type` byte is UTF-8-decoded and must be < 128.  The
constructor's `assert 0 <= priority < 128` then holds automatically. -/
def Header.from_bytes (bs : List Nat) : Option Header :=
  match bs with
  | [pr, a0, a1, a2, a3, p0, p1, b0, b1, b2, b3, q0, q1, o0, o1, o2, o3, t] =>
    if 48 ≤ pr ∧ pr ≤ 57 ∧ a0 < 256 ∧ a1 < 256 ∧ a2 < 256 ∧ a3 < 256 ∧
       p0 < 256 ∧ p1 < 256 ∧ b0 < 256 ∧ b1 < 256 ∧ b2 < 256 ∧ b3 < 256 ∧
       q0 < 256 ∧ q1 < 256 ∧ o0 < 256 ∧ o1 < 256 ∧ o2 < 256 ∧ o3 < 256 ∧
       t < 128 then
      some { priority := pr - 48
             src_ip := read4 a0 a1 a2 a3
             src_port := read2 p0 p1
             dst_ip := read4 b0 b1 b2 b3
             dst_port := read2 q0 q1
             outer_length := read4 o0 o1 o2 o3
             packet_type := Char.ofNat t }
    else none
  | _ => none

/-- One row of the static ROUTING_TABLE. -/
structure HopDetails where
  next_hop_ip : Nat
  next_hop_port : Nat
  delay : Nat
  loss_probability : Nat
deriving DecidableEq, Repr

/-- The module-level ROUTING_TABLE, keyed by `(dst_ip, dst_port)`. -/
def RoutingTable : Type := List ((Nat × Nat) × HopDetails)

/-- `find_next_hop`: table lookup on the header's destination. -/
def find_next_hop (rt : RoutingTable) (h : Header) : Option HopDetails :=
  alookup rt (h.dst_ip, h.dst_port)

/-- Externally observable actions of the queue bank.  The `loss…`
constructors correspond to the reasons passed to `log_loss_event`. -/
inductive Ev
  | sent (dst : Nat × Nat) (pkt : List Nat)
  | lossNoRoute
  | lossQueueFull (priority : Nat)
  | lossRandom
deriving DecidableEq, Repr

/-- `QueueWithPriority`: per-priority FIFO queues (`defaultdict(deque)`,
modelled as an association list read with default `[]` — a key that would
only ever hold an empty deque is unobservable) and the single delay slot
`delay_packet : (admission_time, packet)`. -/
structure QueueWithPriority where
  queue_size : Nat
  queue_with_priority : List (Nat × List (List Nat))
  delay_packet : Option (Nat × List Nat)
deriving DecidableEq, Repr

/-- The queue of a given priority (`defaultdict` read: missing key = `[]`). -/
def getQ (q : QueueWithPriority) (p : Nat) : List (List Nat) :=
  (alookup q.queue_with_priority p).getD []

/-- `QueueWithPriority.__init__`. -/
def initialBank (size : Nat) : QueueWithPriority :=
  { queue_size := size, queue_with_priority := [], delay_packet := none }

/-- `QueueWithPriority.push_queue`.  Parses the header from the first 18
bytes (raising = `none`), drops with a logged reason when no route exists,
sends type-`E` packets straight to the next hop, tail-drops when the target
queue is full (`len >= queue_size`), otherwise appends to the right. -/
def push_queue (rt : RoutingTable) (q : QueueWithPriority) (pkt : List Nat) :
    Option (QueueWithPriority × List Ev) :=
  match Header.from_bytes (pkt.take HEADER_SIZE) with
  | none => none
  | some h =>
    match find_next_hop rt h with
    | none => some (q, [Ev.lossNoRoute])
    | some hop =>
      if h.packet_type = 'E' then
        some (q, [Ev.sent (hop.next_hop_ip, hop.next_hop_port) pkt])
      else if q.queue_size ≤ (getQ q h.priority).length then
        some (q, [Ev.lossQueueFull h.priority])
      else
        some ({ q with
                queue_with_priority := aset q.queue_with_priority h.priority
                  (getQ q h.priority ++ [pkt]) }, [])

/-- The numerically smallest priority whose queue is non-empty: the first
hit of the `for priority in sorted(keys)` loop. -/
def minNonEmptyPriority (q : QueueWithPriority) : Option Nat :=
  ((q.queue_with_priority.map Prod.fst).filter (fun p => !(getQ q p).isEmpty)).min?

/-- `QueueWithPriority.send_packets_if_ready`.  `now` models
`datetime.now()` (milliseconds), `rand` models `random.randint(1, 100)`.
With an occupied slot: wait until the delay has elapsed, then either
loss-drop (non-`E` only) or emit, clearing the slot; a missing route makes
the source dereference `None` (= `none`).  With an empty slot: admit the
head of the smallest non-empty priority queue, stamped `now`. -/
def send_packets_if_ready (rt : RoutingTable) (q : QueueWithPriority)
    (now rand : Nat) : Option (QueueWithPriority × List Ev) :=
  match q.delay_packet with
  | some (t, pkt) =>
    match Header.from_bytes (pkt.take HEADER_SIZE) with
    | none => none
    | some h =>
      match find_next_hop rt h with
      | none => none
      | some hop =>
        if now ≤ t + hop.delay then some (q, [])
        else if rand ≤ hop.loss_probability ∧ h.packet_type ≠ 'E' then
          some ({ q with delay_packet := none }, [Ev.lossRandom])
        else
          some ({ q with delay_packet := none },
                [Ev.sent (hop.next_hop_ip, hop.next_hop_port) pkt])
  | none =>
    match minNonEmptyPriority q with
    | none => some (q, [])
    | some p =>
      match getQ q p with
      | [] => some (q, [])
      | pkt :: rest =>
        some ({ q with delay_packet := some (now, pkt),
                       queue_with_priority := aset q.queue_with_priority p rest },
              [])

/-- Folding `push_queue` over a burst of arriving packets (the receive loop
of `perform_routing` between two queue ticks). -/
def pushMany (rt : RoutingTable) : QueueWithPriority → List (List Nat) →
    Option QueueWithPriority
  | q, [] => some q
  | q, pkt :: rest =>
    match push_queue rt q pkt with
    | none => none
    | some (q', _) => pushMany rt q' rest

/-- Every per-priority FIFO holds at most `queue_size` packets. -/
def queuesBounded (q : QueueWithPriority) : Prop :=
  ∀ p, (getQ q p).length ≤ q.queue_size

/-- A concrete 18-byte packet: ASCII-digit priority byte `pr`, fixed
addresses 10.0.0.1:5000 → 10.0.0.2:6000, outer length 5, type byte `t`. -/
def mkPkt (pr t : Nat) : List Nat :=
  [pr, 10, 0, 0, 1, 19, 136, 10, 0, 0, 2, 23, 112, 0, 0, 0, 5, t]

/-- A one-row routing table: 10.0.0.2:6000 via 10.0.0.3:7000,
delay 10 ms, loss probability 50 %. -/
def rtE : RoutingTable :=
  [((167772162, 6000), ⟨167772163, 7000, 10, 50⟩)]

/-- Empty delay slot, non-empty queues at priorities 1 and 2. -/
def bankTwo : QueueWithPriority :=
  { queue_size := 3,
    queue_with_priority := [(2, [mkPkt 50 68]), (1, [mkPkt 49 68])],
    delay_packet := none }

/-- A bank whose delay slot holds a type-`D` packet admitted at time 0. -/
def bankSlot : QueueWithPriority :=
  { queue_size := 3, queue_with_priority := [],
    delay_packet := some (0, mkPkt 49 68) }

/-- A bank whose delay slot holds a type-`E` packet admitted at time 0. -/
def bankSlotE : QueueWithPriority :=
  { queue_size := 3, queue_with_priority := [],
    delay_packet := some (0, mkPkt 49 69) }

/-- A bank whose priority-1 queue is full (`queue_size = 1`). -/
def bankFull : QueueWithPriority :=
  { queue_size := 1, queue_with_priority := [(1, [mkPkt 49 68])],
    delay_packet := none }

end Lab2

namespace Sender

/-- `SenderWindow.PacketData` from Lab2/sender.py.  `retransmit_count = -1`
marks a retired slot (acked or permanently failed). -/
structure PacketData where
  retransmit_count : Int
  last_transmit_time : Nat
  packet : List Nat
deriving DecidableEq, Repr

/-- Observable actions of one window tick. -/
inductive SEv
  | retransmitted (seq : Nat) (pkt : List Nat)
  | failed (seq : Nat)
deriving DecidableEq, Repr

/-- `SenderWindow.retransmit_or_print_error`.  The window dict is a list of
`(seq_no, PacketData)` in insertion order; the `for seq_no in self.window`
loop folds `all_packet_done` over the retired flag read *at visit time* and
rewrites each slot in place.  The wall clock within one call is modelled by
the single instant `now` (`datetime.now() > last + timeout` becomes
`last + timeout < now`; the post-send `last_transmit_time = datetime.now()`
becomes `now`).  The `print` calls only render headers and are not
modelled. -/
def retransmit_or_print_error (timeout now : Nat) :
    List (Nat × PacketData) → Bool × List (Nat × PacketData) × List SEv
  | [] => (true, [], [])
  | (seq, d) :: rest =>
    let done := d.retransmit_count == -1
    let r := retransmit_or_print_error timeout now rest
    if d.retransmit_count = -1 then
      (done && r.1, (seq, d) :: r.2.1, r.2.2)
    else if d.retransmit_count = 5 then
      (done && r.1, (seq, { d with retransmit_count := -1 }) :: r.2.1,
       SEv.failed seq :: r.2.2)
    else if d.last_transmit_time + timeout < now then
      (done && r.1,
       (seq, { d with retransmit_count := d.retransmit_count + 1,
                      last_transmit_time := now }) :: r.2.1,
       SEv.retransmitted seq d.packet :: r.2.2)
    else
      (done && r.1, (seq, d) :: r.2.1, r.2.2)

/-- Spec-side description of what one tick does to one slot. -/
def slotStep (timeout now : Nat) (d : PacketData) : PacketData :=
  if d.retransmit_count = -1 then d
  else if d.retransmit_count = 5 then { d with retransmit_count := -1 }
  else if d.last_transmit_time + timeout < now then
    { d with retransmit_count := d.retransmit_count + 1,
             last_transmit_time := now }
  else d

/-- Spec-side description of the actions one tick takes on one slot. -/
def slotEvents (timeout now : Nat) (e : Nat × PacketData) : List SEv :=
  if e.2.retransmit_count = -1 then []
  else if e.2.retransmit_count = 5 then [SEv.failed e.1]
  else if e.2.last_transmit_time + timeout < now then
    [SEv.retransmitted e.1 e.2.packet]
  else []

/-- `SenderWindow.ack_packet`: if the sequence number is a key of the
window, retire that slot; otherwise do nothing. -/
def ack_packet (w : List (Nat × PacketData)) (seq : Nat) :
    List (Nat × PacketData) :=
  match alookup w seq with
  | none => w
  | some _ =>
    w.map (fun e =>
      if e.1 = seq then (e.1, { e.2 with retransmit_count := -1 }) else e)

/-- A concrete three-slot window: one retired slot, one slot at
MAX_RETRIES, one live slot last sent at time 0. -/
def exampleWindow : List (Nat × PacketData) :=
  [(1, ⟨-1, 0, [1, 2]⟩), (2, ⟨5, 0, [3, 4]⟩), (3, ⟨0, 0, [5, 6]⟩)]

end Sender

namespace Lab3

/-- A topology node `(ip, port)`. -/
abbrev Node := Nat × Nat

/-- Python `set.add`: append unless already a member (set semantics — all
reads are membership tests). -/
def setAdd (l : List Node) (x : Node) : List Node :=
  if x ∈ l then l else l ++ [x]

/-- `LinkStateIndividual`: per-origin link-state record. -/
structure LinkStateIndividual where
  seq_no : Nat
  source_ip : Nat
  source_port : Nat
  neighbour_list : List Node
deriving DecidableEq, Repr

/-- `LinkStateIndividual.update_neighbours`.  The advertisement line
`"ip,port nbr1_ip,nbr1_port …"` is modelled by its parsed form
`(start, nbrs)`.  Only a strictly newer sequence number mutates the record:
it is bumped and the neighbour set is cleared and refilled from the line.
The `assert` that the line's origin matches the record raises (`none`)
otherwise. -/
def LinkStateIndividual.update_neighbours (lsi : LinkStateIndividual)
    (line : Node × List Node) (new_seq_no : Nat) :
    Option LinkStateIndividual :=
  if lsi.seq_no < new_seq_no then
    if (lsi.source_ip, lsi.source_port) = line.1 then
      some { lsi with seq_no := new_seq_no,
                      neighbour_list := line.2.foldl setAdd [] }
    else none
  else some lsi

/-- `heapq` orders `(cost, (ip, port))` tuples lexicographically. -/
def entryLe (x y : Nat × Node) : Bool :=
  x.1 < y.1 || (x.1 = y.1 && (x.2.1 < y.2.1 ||
    (x.2.1 = y.2.1 && x.2.2 ≤ y.2.2)))

/-- The minimum entry of a non-empty heap (left-most among equals). -/
def minEntry (x : Nat × Node) (xs : List (Nat × Node)) : Nat × Node :=
  xs.foldl (fun m e => if entryLe m e then m else e) x

/-- Remove the first occurrence of an entry. -/
def removeFirst : List (Nat × Node) → (Nat × Node) → List (Nat × Node)
  | [], _ => []
  | x :: xs, m => if x = m then xs else x :: removeFirst xs m

/-- `heap.heappop`: remove and return the minimum entry. -/
def popMin : List (Nat × Node) → Option ((Nat × Node) × List (Nat × Node))
  | [] => none
  | x :: xs => some (minEntry x xs, removeFirst (x :: xs) (minEntry x xs))

/-- The mutable state threaded through the relaxation loop of
`__dijkstra__`: `parents_map`, the priority queue, and `node_costs`
(a missing binding is the `defaultdict`'s `inf`). -/
structure RState where
  parents_map : List (Node × Node)
  pq : List (Nat × Node)
  node_costs : List (Node × Nat)
deriving DecidableEq, Repr

/-- The body of `for adj_node in …neighbour_list`: skip visited nodes,
and relax when `node_costs[adj_node] > new_cost` (a missing cost is `inf`):
record the parent, store the new cost and push the heap entry. -/
def relaxOne (visited : List Node) (newCost : Nat) (node : Node)
    (st : RState) (adj : Node) : RState :=
  if adj ∈ visited then st
  else
    match alookup st.node_costs adj with
    | none =>
      ⟨aset st.parents_map adj node, (newCost, adj) :: st.pq,
       aset st.node_costs adj newCost⟩
    | some cadj =>
      if newCost < cadj then
        ⟨aset st.parents_map adj node, (newCost, adj) :: st.pq,
         aset st.node_costs adj newCost⟩
      else st

/-- The whole neighbour loop.  (The Python neighbour set's iteration order
is modelled by the list order of `neighbour_list`.) -/
def relaxAll (visited : List Node) (newCost : Nat) (node : Node)
    (adjs : List Node) (st : RState) : RState :=
  adjs.foldl (relaxOne visited newCost node) st

/-- All nodes that occur in some neighbour list: the only keys the
relaxation step can ever insert into `node_costs`. -/
def targetsOf (g : List (Node × LinkStateIndividual)) : List Node :=
  (g.map (fun e => e.2.neighbour_list)).flatten

/-- Termination measure, first component: potential targets with cost
still `inf`. -/
def countInf (g : List (Node × LinkStateIndividual))
    (costs : List (Node × Nat)) : Nat :=
  ((targetsOf g).dedup.filter (fun v => (alookup costs v).isNone)).length

/-- Termination measure, second component: the sum of all stored costs. -/
def sumCosts : List (Node × Nat) → Nat
  | [] => 0
  | e :: rest => e.2 + sumCosts rest

/-- The full state of the `while pq:` loop of `__dijkstra__`. -/
structure DState where
  visited : List Node
  parents_map : List (Node × Node)
  pq : List (Nat × Node)
  node_costs : List (Node × Nat)
deriving DecidableEq, Repr

/-- The `while pq:` loop of `__dijkstra__`: pop the minimum entry, add its
node to `visited`, skip nodes outside the link-state map, otherwise relax
every neighbour with `new_cost = node_costs[node] + 1`.  (When the popped
node has no stored cost, `new_cost` is `inf + 1 = inf` and no relaxation can
fire, so the branch only consumes the entry.)  Termination: every push
strictly lowers a stored cost or binds a previously-`inf` target, and a
push-free iteration shortens the queue. -/
def dloop (g : List (Node × LinkStateIndividual)) (st : DState) : DState :=
  match hp : popMin st.pq with
  | none => st
  | some (e, pqrest) =>
    match hg : alookup g e.2 with
    | none => dloop g ⟨setAdd st.visited e.2, st.parents_map, pqrest, st.node_costs⟩
    | some lsi =>
      match hc : alookup st.node_costs e.2 with
      | none => dloop g ⟨setAdd st.visited e.2, st.parents_map, pqrest, st.node_costs⟩
      | some cn =>
        dloop g ⟨setAdd st.visited e.2,
          (relaxAll (setAdd st.visited e.2) (cn + 1) e.2 lsi.neighbour_list
            ⟨st.parents_map, pqrest, st.node_costs⟩).parents_map,
          (relaxAll (setAdd st.visited e.2) (cn + 1) e.2 lsi.neighbour_list
            ⟨st.parents_map, pqrest, st.node_costs⟩).pq,
          (relaxAll (setAdd st.visited e.2) (cn + 1) e.2 lsi.neighbour_list
            ⟨st.parents_map, pqrest, st.node_costs⟩).node_costs⟩
termination_by (countInf g st.node_costs, sumCosts st.node_costs, st.pq.length)
decreasing_by
  · have hlen : pqrest.length < st.pq.length := by
      cases hq : st.pq with
      | nil => rw [hq] at hp; simp [popMin] at hp
      | cons x xs =>
        rw [hq] at hp
        simp only [popMin, Option.some.injEq, Prod.mk.injEq] at hp
        obtain ⟨hme, hrest⟩ := hp
        have hmem : ∀ (ys : List (Nat × Node)) (y : Nat × Node),
            minEntry y ys ∈ y :: ys := by
          intro ys
          induction ys with
          | nil => intro y; simp [minEntry]
          | cons z zs ih =>
            intro y
            have h2 := ih (if entryLe y z then y else z)
            simp only [minEntry, List.foldl_cons] at h2 ⊢
            rcases List.mem_cons.mp h2 with h3 | h3
            · rw [h3]
              by_cases hz : entryLe y z <;> simp [hz]
            · simp [h3]
        have hm := hmem xs x
        have hrf : ∀ (l : List (Nat × Node)) (m : Nat × Node), m ∈ l →
            (removeFirst l m).length + 1 = l.length := by
          intro l
          induction l with
          | nil => intro m hm2; cases hm2
          | cons y ys ih2 =>
            intro m hm2
            by_cases hy : y = m
            · simp [removeFirst, hy]
            · rcases List.mem_cons.mp hm2 with h3 | h3
              · exact absurd h3.symm hy
              · simp only [removeFirst, hy, if_false, List.length_cons]
                rw [← ih2 m h3]
        rw [← hrest, ← hrf (x :: xs) (minEntry x xs) hm]
        omega
    exact Prod.Lex.right _ (Prod.Lex.right _ hlen)
  · have hlen : pqrest.length < st.pq.length := by
      cases hq : st.pq with
      | nil => rw [hq] at hp; simp [popMin] at hp
      | cons x xs =>
        rw [hq] at hp
        simp only [popMin, Option.some.injEq, Prod.mk.injEq] at hp
        obtain ⟨hme, hrest⟩ := hp
        have hmem : ∀ (ys : List (Nat × Node)) (y : Nat × Node),
            minEntry y ys ∈ y :: ys := by
          intro ys
          induction ys with
          | nil => intro y; simp [minEntry]
          | cons z zs ih =>
            intro y
            have h2 := ih (if entryLe y z then y else z)
            simp only [minEntry, List.foldl_cons] at h2 ⊢
            rcases List.mem_cons.mp h2 with h3 | h3
            · rw [h3]
              by_cases hz : entryLe y z <;> simp [hz]
            · simp [h3]
        have hm := hmem xs x
        have hrf : ∀ (l : List (Nat × Node)) (m : Nat × Node), m ∈ l →
            (removeFirst l m).length + 1 = l.length := by
          intro l
          induction l with
          | nil => intro m hm2; cases hm2
          | cons y ys ih2 =>
            intro m hm2
            by_cases hy : y = m
            · simp [removeFirst, hy]
            · rcases List.mem_cons.mp hm2 with h3 | h3
              · exact absurd h3.symm hy
              · simp only [removeFirst, hy, if_false, List.length_cons]
                rw [← ih2 m h3]
        rw [← hrest, ← hrf (x :: xs) (minEntry x xs) hm]
        omega
    exact Prod.Lex.right _ (Prod.Lex.right _ hlen)
  · have hlen : pqrest.length < st.pq.length := by
      cases hq : st.pq with
      | nil => rw [hq] at hp; simp [popMin] at hp
      | cons x xs =>
        rw [hq] at hp
        simp only [popMin, Option.some.injEq, Prod.mk.injEq] at hp
        obtain ⟨hme, hrest⟩ := hp
        have hmem : ∀ (ys : List (Nat × Node)) (y : Nat × Node),
            minEntry y ys ∈ y :: ys := by
          intro ys
          induction ys with
          | nil => intro y; simp [minEntry]
          | cons z zs ih =>
            intro y
            have h2 := ih (if entryLe y z then y else z)
            simp only [minEntry, List.foldl_cons] at h2 ⊢
            rcases List.mem_cons.mp h2 with h3 | h3
            · rw [h3]
              by_cases hz : entryLe y z <;> simp [hz]
            · simp [h3]
        have hm := hmem xs x
        have hrf : ∀ (l : List (Nat × Node)) (m : Nat × Node), m ∈ l →
            (removeFirst l m).length + 1 = l.length := by
          intro l
          induction l with
          | nil => intro m hm2; cases hm2
          | cons y ys ih2 =>
            intro m hm2
            by_cases hy : y = m
            · simp [removeFirst, hy]
            · rcases List.mem_cons.mp hm2 with h3 | h3
              · exact absurd h3.symm hy
              · simp only [removeFirst, hy, if_false, List.length_cons]
                rw [← ih2 m h3]
        rw [← hrest, ← hrf (x :: xs) (minEntry x xs) hm]
        omega
    have haset_self : ∀ (c : List (Node × Nat)) (a : Node) (v : Nat),
        alookup (aset c a v) a = some v := by
      intro c a v
      induction c with
      | nil => simp [aset, alookup]
      | cons kv rest ih =>
        obtain ⟨k, w⟩ := kv
        by_cases hk : k = a <;> simp [aset, alookup, hk, ih]
    have haset_ne : ∀ (c : List (Node × Nat)) (a x : Node) (v : Nat),
        x ≠ a → alookup (aset c a v) x = alookup c x := by
      intro c a x v hxa
      have hax : a ≠ x := Ne.symm hxa
      induction c with
      | nil => simp [aset, alookup, hax]
      | cons kv rest ih =>
        obtain ⟨k, w⟩ := kv
        by_cases hk : k = a
        · subst hk
          simp [aset, alookup, hax]
        · by_cases hk' : k = x <;> simp [aset, alookup, hk, hk', ih, hax, hxa]
    have hval : ∀ (l : List (Node × LinkStateIndividual)) (n : Node)
        (v : LinkStateIndividual), alookup l n = some v →
        ∀ a ∈ v.neighbour_list, a ∈ targetsOf l := by
      intro l
      induction l with
      | nil => intro n v h; simp [alookup] at h
      | cons kv rest ih =>
        intro n v h a ha
        obtain ⟨k, w⟩ := kv
        have htg : targetsOf ((k, w) :: rest) =
            w.neighbour_list ++ targetsOf rest := by
          simp [targetsOf]
        rw [htg]
        simp only [alookup] at h
        by_cases hk : k = n
        · rw [if_pos hk] at h
          cases h
          exact List.mem_append_left _ ha
        · rw [if_neg hk] at h
          exact List.mem_append_right _ (ih n v h a ha)
    have hsum : ∀ (c : List (Node × Nat)) (a : Node) (w v : Nat),
        alookup c a = some w →
        sumCosts (aset c a v) + w = sumCosts c + v := by
      intro c
      induction c with
      | nil => intro a w v h; simp [alookup] at h
      | cons kv rest ih =>
        intro a w v h
        obtain ⟨k, u⟩ := kv
        simp only [alookup] at h
        by_cases hk : k = a
        · rw [if_pos hk] at h
          cases h
          simp only [aset, hk, if_pos rfl, sumCosts]
          omega
        · rw [if_neg hk] at h
          simp only [aset, hk, if_false, sumCosts]
          have := ih a w v h
          omega
    have hcnt_some : ∀ (c : List (Node × Nat)) (a : Node) (w v : Nat),
        alookup c a = some w →
        countInf g (aset c a v) = countInf g c := by
      intro c a w v h
      unfold countInf
      congr 1
      apply List.filter_congr
      intro x hx
      by_cases hxa : x = a
      · subst hxa
        rw [haset_self, h]
        rfl
      · rw [haset_ne c a x v hxa]

    have hcnt_lt : ∀ (c : List (Node × Nat)) (a : Node) (v : Nat),
        alookup c a = none → a ∈ targetsOf g →
        countInf g (aset c a v) < countInf g c := by
      intro c a v hnone hmemt
      unfold countInf
      have hnd : ((targetsOf g).dedup).Nodup := List.nodup_dedup _
      have hmem' : a ∈ (targetsOf g).dedup := List.mem_dedup.mpr hmemt
      have hgen : ∀ (l : List Node), l.Nodup → a ∈ l →
          (l.filter (fun x => (alookup (aset c a v) x).isNone)).length <
          (l.filter (fun x => (alookup c x).isNone)).length := by
        intro l
        induction l with
        | nil => intro _ h; cases h
        | cons b rest ih =>
          intro hnd2 hmem2
          rcases List.mem_cons.mp hmem2 with hb | hb
          · subst hb
            have hrest_eq : rest.filter
                  (fun x => (alookup (aset c a v) x).isNone) =
                rest.filter (fun x => (alookup c x).isNone) := by
              apply List.filter_congr
              intro x hx
              have hxa : x ≠ a := by
                intro hxe
                subst hxe
                exact (List.nodup_cons.mp hnd2).1 hx
              rw [haset_ne c a x v hxa]
            have h1 : ((alookup (aset c a v) a).isNone : Bool) = false := by
              rw [haset_self]
              rfl
            have h2 : ((alookup c a).isNone : Bool) = true := by
              rw [hnone]
              rfl
            simp only [List.filter_cons, h1, h2, if_pos, if_neg,
              Bool.false_eq_true, if_false, if_true, List.length_cons, hrest_eq]
            omega
          · have hnd' := (List.nodup_cons.mp hnd2).2
            have hlt3 := ih hnd' hb
            by_cases hba : b = a
            · subst hba
              exact absurd hb (List.nodup_cons.mp hnd2).1
            · have hpb : (alookup (aset c a v) b).isNone =
                  (alookup c b).isNone := by
                rw [haset_ne c a b v hba]
              cases hpbv : ((alookup c b).isNone : Bool)
              · rw [hpbv] at hpb
                simp only [List.filter_cons, hpb, hpbv, Bool.false_eq_true,
                  if_false]
                exact hlt3
              · rw [hpbv] at hpb
                simp only [List.filter_cons, hpb, hpbv, if_true,
                  List.length_cons]
                omega
      exact hgen _ hnd hmem'
    have hkey : ∀ (adjs : List Node) (rst : RState),
        (∀ a ∈ adjs, a ∈ targetsOf g) →
        relaxAll (setAdd st.visited e.2) (cn + 1) e.2 adjs rst = rst ∨
        countInf g (relaxAll (setAdd st.visited e.2) (cn + 1) e.2 adjs
          rst).node_costs < countInf g rst.node_costs ∨
        (countInf g (relaxAll (setAdd st.visited e.2) (cn + 1) e.2 adjs
          rst).node_costs = countInf g rst.node_costs ∧
         sumCosts (relaxAll (setAdd st.visited e.2) (cn + 1) e.2 adjs
          rst).node_costs < sumCosts rst.node_costs) := by
      intro adjs
      induction adjs with
      | nil =>
        intro rst _
        left
        rfl
      | cons a rest ih =>
        intro rst hsub2
        have hsub3 : ∀ x ∈ rest, x ∈ targetsOf g := fun x hx =>
          hsub2 x (List.mem_cons_of_mem _ hx)
        have hstep : relaxAll (setAdd st.visited e.2) (cn + 1) e.2
            (a :: rest) rst = relaxAll (setAdd st.visited e.2) (cn + 1) e.2
            rest (relaxOne (setAdd st.visited e.2) (cn + 1) e.2 rst a) := by
          simp [relaxAll]
        by_cases hv : a ∈ setAdd st.visited e.2
        · have hone : relaxOne (setAdd st.visited e.2) (cn + 1) e.2 rst a =
              rst := by
            simp [relaxOne, hv]
          rw [hstep, hone]
          exact ih rst hsub3
        · cases hca : alookup rst.node_costs a with
          | none =>
            have hone : relaxOne (setAdd st.visited e.2) (cn + 1) e.2 rst a =
                ⟨aset rst.parents_map a e.2, (cn + 1, a) :: rst.pq,
                 aset rst.node_costs a (cn + 1)⟩ := by
              simp [relaxOne, hv, hca]
            have hc1 : countInf g (aset rst.node_costs a (cn + 1)) <
                countInf g rst.node_costs :=
              hcnt_lt _ _ _ hca (hsub2 a (List.mem_cons_self a rest))
            rw [hstep, hone]
            rcases ih ⟨aset rst.parents_map a e.2, (cn + 1, a) :: rst.pq,
                aset rst.node_costs a (cn + 1)⟩ hsub3 with heq | hlt | hes
            · rw [heq]
              right
              left
              exact hc1
            · right
              left
              exact lt_trans hlt hc1
            · right
              left
              rw [hes.1]
              exact hc1
          | some cadj =>
            by_cases hlt2 : cn + 1 < cadj
            · have hone : relaxOne (setAdd st.visited e.2) (cn + 1) e.2 rst
                  a = ⟨aset rst.parents_map a e.2, (cn + 1, a) :: rst.pq,
                   aset rst.node_costs a (cn + 1)⟩ := by
                simp [relaxOne, hv, hca, hlt2]
              have hceq : countInf g (aset rst.node_costs a (cn + 1)) =
                  countInf g rst.node_costs := hcnt_some _ _ _ _ hca
              have hslt : sumCosts (aset rst.node_costs a (cn + 1)) <
                  sumCosts rst.node_costs := by
                have := hsum rst.node_costs a cadj (cn + 1) hca
                omega
              rw [hstep, hone]
              rcases ih ⟨aset rst.parents_map a e.2, (cn + 1, a) :: rst.pq,
                  aset rst.node_costs a (cn + 1)⟩ hsub3 with heq | hlt | hes
              · rw [heq]
                right
                right
                exact ⟨hceq, hslt⟩
              · right
                left
                rw [← hceq]
                exact hlt
              · right
                right
                exact ⟨hes.1.trans hceq, lt_trans hes.2 hslt⟩
            · have hone : relaxOne (setAdd st.visited e.2) (cn + 1) e.2 rst
                  a = rst := by
                simp [relaxOne, hv, hca, hlt2]
              rw [hstep, hone]
              exact ih rst hsub3
    have hsub : ∀ a ∈ lsi.neighbour_list, a ∈ targetsOf g :=
      hval g e.2 lsi hg
    rcases hkey lsi.neighbour_list ⟨st.parents_map, pqrest, st.node_costs⟩
        hsub with heq | hlt | hes
    · rw [heq]
      exact Prod.Lex.right _ (Prod.Lex.right _ hlen)
    · exact Prod.Lex.left _ _ hlt
    · rw [hes.1]
      exact Prod.Lex.right _ (Prod.Lex.left _ _ hes.2)

/-- `__dijkstra__`: seed the heap with `(0, starting_node)` and
`node_costs[starting_node] = 0`, run the loop, return
`(parents_map, visited)`. -/
def dijkstra (g : List (Node × LinkStateIndividual)) (root : Node) :
    List (Node × Node) × List Node :=
  let st := dloop g ⟨[], [], [(0, root)], [(root, 0)]⟩
  (st.parents_map, st.visited)

/-- `set_forwarding_table` inside `build_forward_table`: the memoised
recursion over `parents_map` that finds, for `curr`, the chain ancestor
whose parent is the root (the first hop), caching every intermediate result
in the table.  A `KeyError` on `parents_map[curr]` is `none`.  The recursion
is fuelled; every real call chain is shorter than the number of parent
bindings because the costs strictly decrease toward the root, so the fuel
`parents.length + 1` used by the caller never runs out (proved with the
claims below). -/
def set_forwarding_table (parents : List (Node × Node)) (root : Node) :
    Nat → List (Node × Node) → Node → Option (List (Node × Node) × Node)
  | 0, _, _ => none
  | fuel + 1, table, curr =>
    match alookup parents curr with
    | none => none
    | some par =>
      match alookup table par with
      | some hop => some (aset table curr hop, hop)
      | none =>
        if par = root then some (table, curr)
        else
          match set_forwarding_table parents root fuel table par with
          | none => none
          | some (t', hop) => some (aset t' curr hop, hop)

/-- The `for each_node in visited:` loop of `build_forward_table`
(the Python set's iteration order is modelled by the order of the
`visited` list). -/
def build_fold (parents : List (Node × Node)) (root : Node) (fuel : Nat) :
    List (Node × Node) → List Node → Option (List (Node × Node))
  | table, [] => some table
  | table, n :: rest =>
    if n = root then build_fold parents root fuel table rest
    else
      match set_forwarding_table parents root fuel table n with
      | none => none
      | some (t', hop) => build_fold parents root fuel (aset t' n hop) rest

/-- `LinkGraph`: the local node, the link-state database, and the
forwarding table. -/
structure LinkGraph where
  starting_node : Node
  link_state_map : List (Node × LinkStateIndividual)
  forwarding_table : List (Node × Node)
deriving DecidableEq, Repr

/-- `LinkGraph.build_forward_table`: clear the table, run Dijkstra, then
fill the table with the first hop of every visited node other than the
root. -/
def LinkGraph.build_forward_table (g : LinkGraph) : Option LinkGraph :=
  match build_fold (dijkstra g.link_state_map g.starting_node).1
      g.starting_node ((dijkstra g.link_state_map g.starting_node).1.length + 1)
      [] (dijkstra g.link_state_map g.starting_node).2 with
  | none => none
  | some table => some { g with forwarding_table := table }

/-- `LinkGraph.update_link_states`: create a fresh record (seq 0, no
neighbours) for an unknown origin, remember the old sequence number, apply
`update_neighbours`, and rebuild the forwarding table exactly when
`new_seq_no > old_seq_no`.  Returns the old sequence number. -/
def LinkGraph.update_link_states (g : LinkGraph) (start : Node)
    (line : Node × List Node) (new_seq_no : Nat) : Option (Nat × LinkGraph) :=
  let map1 := if (alookup g.link_state_map start).isSome then g.link_state_map
              else aset g.link_state_map start ⟨0, start.1, start.2, []⟩
  match alookup map1 start with
  | none => none
  | some lsi =>
    match lsi.update_neighbours line new_seq_no with
    | none => none
    | some lsi' =>
      if lsi.seq_no < new_seq_no then
        (LinkGraph.build_forward_table
          { g with link_state_map := aset map1 start lsi' }).map
          (fun g3 => (lsi.seq_no, g3))
      else some (lsi.seq_no, { g with link_state_map := aset map1 start lsi' })

/-- `LinkGraph.find_next_hop`: forwarding-table lookup on the
destination. -/
def LinkGraph.find_next_hop (g : LinkGraph) (h : Header) : Option Node :=
  alookup g.forwarding_table (h.dst_ip, h.dst_port)

/-- `get_reverse_header`: deep copy with `ttl = 1` and `src`/`dst`
swapped. -/
def get_reverse_header (old : Header) : Header :=
  { old with ttl := 1,
             src_ip := old.dst_ip, src_port := old.dst_port,
             dst_ip := old.src_ip, dst_port := old.src_port }

/-- The 6-byte `TunnelHeader` (`struct` format `'!IH'`). -/
structure TunnelHeader where
  dst_emulator_ip : Nat
  dst_emulator_port : Nat
deriving DecidableEq, Repr

/-- `struct.calcsize('!IH')` = 6. -/
def TunnelHeader.header_size : Nat := 6

/-- `TunnelHeader.from_bytes`. -/
def TunnelHeader.from_bytes (bs : List Nat) : Option TunnelHeader :=
  match bs with
  | [a0, a1, a2, a3, p0, p1] =>
    if a0 < 256 ∧ a1 < 256 ∧ a2 < 256 ∧ a3 < 256 ∧ p0 < 256 ∧ p1 < 256 then
      some ⟨read4 a0 a1 a2 a3, read2 p0 p1⟩
    else none
  | _ => none

/-- Datagrams the emulator emits. -/
inductive NetEv
  | sent (dst : Node) (pkt : List Nat)
deriving DecidableEq, Repr

/-- The payload bytes of an emitted datagram. -/
def NetEv.pkt : NetEv → List Nat
  | NetEv.sent _ p => p

/-- The destination address of an emitted datagram. -/
def NetEv.dst : NetEv → Node
  | NetEv.sent d _ => d

/-- The `LinkMaintenance` state used by the data-plane handlers
(the ping bookkeeping is irrelevant to them and is omitted). -/
structure LinkMaintenance where
  link_graph : LinkGraph
  registered_clients : List Node
  self_ip : Nat
  self_port : Nat
deriving DecidableEq, Repr

/-- `__find_next_hop_and_forward__`: asserts the type is not `L`, looks up
the next hop (missing route: log and drop, no exception), decrements the
TTL and re-encodes.  A TTL that is already 0 would make `struct.pack`
receive `-1` and raise. -/
def LinkMaintenance.find_next_hop_and_forward (lm : LinkMaintenance)
    (pkt : List Nat) : Option (List NetEv) :=
  match Header.from_bytes (pkt.take Header.header_size) with
  | none => none
  | some h =>
    if h.packet_type = 'L' then none
    else
      match lm.link_graph.find_next_hop h with
      | none => some []
      | some nh =>
        match h.ttl with
        | 0 => none
        | t + 1 =>
          match Header.to_bytes { h with ttl := t } with
          | none => none
          | some hb =>
            some [NetEv.sent nh (hb ++ pkt.drop Header.header_size)]

/-- `__send_packet_to_client__`: asserts the outer header is wrapped and
addressed to this emulator, asserts the inner header is not wrapped, and
sends the inner packet (inner header plus payload, unmodified) to
`(inner.dst_ip, inner.dst_port)` — but only when that address is a
registered client. -/
def LinkMaintenance.send_packet_to_client (lm : LinkMaintenance)
    (pkt : List Nat) : Option (List NetEv) :=
  match Header.from_bytes (pkt.take Header.header_size) with
  | none => none
  | some h =>
    if h.wrapped = true then
      if h.dst_ip = lm.self_ip ∧ h.dst_port = lm.self_port then
        match Header.from_bytes ((pkt.drop Header.header_size).take
            Header.header_size) with
        | none => none
        | some ih =>
          if ih.wrapped = false then
            if (ih.dst_ip, ih.dst_port) ∈ lm.registered_clients then
              some [NetEv.sent (ih.dst_ip, ih.dst_port)
                (pkt.drop Header.header_size)]
            else some []
          else none
      else none
    else none

/-- `__wrap_client_packet_and_send__`: consume the tunnel header, build the
wrapped outer header `(self → tunnel destination, same type/ttl/length,
wrapped)`, and forward `outer + original inner header + payload`. -/
def LinkMaintenance.wrap_client_packet_and_send (lm : LinkMaintenance)
    (pkt : List Nat) : Option (List NetEv) :=
  match Header.from_bytes (pkt.take Header.header_size) with
  | none => none
  | some h =>
    if h.wrapped = false then
      if (h.src_ip, h.src_port) ∈ lm.registered_clients then
        match TunnelHeader.from_bytes ((pkt.drop Header.header_size).take
            TunnelHeader.header_size) with
        | none => none
        | some th =>
          match Header.to_bytes
              { src_ip := lm.self_ip, src_port := lm.self_port,
                dst_ip := th.dst_emulator_ip, dst_port := th.dst_emulator_port,
                packet_type := h.packet_type, seq_no := 0, ttl := h.ttl,
                payload_length := h.payload_length, wrapped := true },
            Header.to_bytes h with
          | some ob, some hb =>
            lm.find_next_hop_and_forward
              (ob ++ hb ++ pkt.drop (Header.header_size + TunnelHeader.header_size))
          | _, _ => none
      else none
    else none

/-- `drop_packet`: the TTL-expiry handler.  Asserts `ttl == 0`; silently
drops non-`T` packets.  For a registered local client, replies directly with
a reversed header (src := self).  For a remote source, builds a reply
wrapped at both layers: the reversed outer header gets `src := self` and
`ttl := TTL_MAX`; the reversed inner header gets `src := self` — the source
then executes `new_inner_header.tll = TTL_MAX`, and because the attribute
name is misspelled (`tll`), the inner `ttl` keeps the value 1 assigned by
`get_reverse_header`.  The reply is forwarded via the forwarding table. -/
def LinkMaintenance.drop_packet (lm : LinkMaintenance) (pkt : List Nat) :
    Option (List NetEv) :=
  match Header.from_bytes (pkt.take Header.header_size) with
  | none => none
  | some h =>
    if h.ttl = 0 then
      if h.packet_type ≠ 'T' then some []
      else if (h.src_ip, h.src_port) ∈ lm.registered_clients then
        match Header.to_bytes { get_reverse_header h with
            src_ip := lm.self_ip, src_port := lm.self_port } with
        | none => none
        | some nb =>
          some [NetEv.sent ((get_reverse_header h).dst_ip,
              (get_reverse_header h).dst_port)
            (nb ++ pkt.drop (Header.header_size + TunnelHeader.header_size))]
      else
        match Header.from_bytes ((pkt.drop Header.header_size).take
            Header.header_size) with
        | none => none
        | some ih =>
          match Header.to_bytes { get_reverse_header h with
              src_ip := lm.self_ip, src_port := lm.self_port,
              ttl := TTL_MAX },
            Header.to_bytes { get_reverse_header ih with
              src_ip := lm.self_ip, src_port := lm.self_port } with
          | some ob, some ib =>
            lm.find_next_hop_and_forward
              (ob ++ ib ++ pkt.drop (Header.header_size * 2))
          | _, _ => none
    else none

/-- `forward_packet`: the data-plane dispatch.  Asserts the type is not `L`
and the source is not this emulator.  `A` registers the client (must be
addressed to us).  `R`/`D`/`E`/`T` addressed to us are unwrapped and handed
to the local client; packets from a registered client are tunnel-wrapped;
everything else is store-and-forwarded. -/
def LinkMaintenance.forward_packet (lm : LinkMaintenance) (pkt : List Nat) :
    Option (LinkMaintenance × List NetEv) :=
  match Header.from_bytes (pkt.take Header.header_size) with
  | none => none
  | some h =>
    if h.packet_type = 'L' then none
    else if h.src_ip = lm.self_ip ∧ h.src_port = lm.self_port then none
    else if h.packet_type = 'A' then
      if h.dst_ip = lm.self_ip ∧ h.dst_port = lm.self_port then
        some ({ lm with
          registered_clients := setAdd lm.registered_clients (h.src_ip, h.src_port) }, [])
      else none
    else if h.packet_type ∈ ['R', 'D', 'E', 'T'] ∧
        h.dst_ip = lm.self_ip ∧ h.dst_port = lm.self_port then
      (lm.send_packet_to_client pkt).map (fun evs => (lm, evs))
    else if h.packet_type ∈ ['R', 'D', 'E', 'T'] ∧
        (h.src_ip, h.src_port) ∈ lm.registered_clients then
      (lm.wrap_client_packet_and_send pkt).map (fun evs => (lm, evs))
    else
      (lm.find_next_hop_and_forward pkt).map (fun evs => (lm, evs))

/-- Concrete link-state record and graph for evaluating the flood update:
node 10:1 with an empty neighbour set at sequence number 0. -/
def lsiZero : LinkStateIndividual := ⟨0, 10, 1, []⟩

/-- A one-node link graph rooted at 10:1. -/
def graphOne : LinkGraph := ⟨(10, 1), [((10, 1), lsiZero)], []⟩

/-- The emulator state used for the TTL-expiry reply: local node
10.0.0.1:1000, no registered clients, a forwarding-table row for the
originator 10.0.0.40:2000 via 10.0.0.44:3000. -/
def lmT : LinkMaintenance :=
  { link_graph := ⟨(167772161, 1000), [],
      [((167772200, 2000), (167772204, 3000))]⟩,
    registered_clients := [],
    self_ip := 167772161, self_port := 1000 }

/-- An expired (`ttl = 0`) wrapped trace packet from the remote client
10.0.0.40:2000, addressed to the local emulator: outer `T` header
(wrapped) followed by an inner `T` header (unwrapped). -/
def pktT : List Nat :=
  [10, 0, 0, 40, 7, 208, 10, 0, 0, 1, 3, 232, 84, 0, 0, 0, 0, 0, 0,
   0, 0, 0, 24, 1] ++
  [10, 0, 0, 40, 7, 208, 10, 0, 0, 9, 15, 160, 84, 0, 0, 0, 0, 0, 0,
   0, 0, 0, 0, 0]

/-- The emulator state for the unwrap-and-deliver path: local node
10.0.0.1:1000 and no registered clients. -/
def lmW : LinkMaintenance :=
  { link_graph := ⟨(167772161, 1000), [], []⟩,
    registered_clients := [],
    self_ip := 167772161, self_port := 1000 }

/-- The same state after the inner destination 10.0.0.9:4000 has
registered. -/
def lmWreg : LinkMaintenance :=
  { lmW with registered_clients := [(167772169, 4000)] }

/-- A live wrapped `R` packet addressed to the local emulator whose inner
header is for the local client 10.0.0.9:4000. -/
def pktW : List Nat :=
  [10, 0, 0, 40, 7, 208, 10, 0, 0, 1, 3, 232, 82, 0, 0, 0, 0, 0, 5,
   0, 0, 0, 24, 1] ++
  [10, 0, 0, 40, 7, 208, 10, 0, 0, 9, 15, 160, 82, 0, 0, 0, 0, 0, 2,
   0, 0, 0, 0, 0]

/-- The directed edge relation of the link-state topology: `u` lists `v` as
a neighbour. -/
def edgeG (g : List (Node × LinkStateIndividual)) (u v : Node) : Prop :=
  ∃ lsi, alookup g u = some lsi ∧ v ∈ lsi.neighbour_list

/-- A walk of `n` edges from `u` to `v` (unit edge weight: the walk's cost
is its edge count). -/
inductive HasWalk (g : List (Node × LinkStateIndividual)) :
    Node → Node → Nat → Prop
  | refl (v : Node) : HasWalk g v v 0
  | cons {u v w : Node} {n : Nat} :
      edgeG g u v → HasWalk g v w n → HasWalk g u w (n + 1)

/-- A walk presented as its list of nodes. -/
inductive IsWalk (g : List (Node × LinkStateIndividual)) : List Node → Prop
  | single (v : Node) : IsWalk g [v]
  | cons {u v : Node} {rest : List Node} :
      edgeG g u v → IsWalk g (v :: rest) → IsWalk g (u :: v :: rest)

/-- The parent chain from `v` up to the root has `n + 1` nodes and `h` is
the chain node whose parent is the root — the *first hop* that
`set_forwarding_table` computes. -/
inductive FirstHopChain (parents : List (Node × Node)) (root : Node) :
    Node → Node → Nat → Prop
  | base {v : Node} : alookup parents v = some root →
      FirstHopChain parents root v v 0
  | step {v u h : Node} {n : Nat} : alookup parents v = some u → u ≠ root →
      FirstHopChain parents root u h n → FirstHopChain parents root v h (n + 1)

/-- The invariant that holds while the neighbour loop of one pop is
running: like `DInv` below, but the relaxation closure is only demanded for
visited sources other than the node being processed. -/
structure MidInv (g : List (Node × LinkStateIndividual)) (root : Node)
    (visited : List Node) (node : Node) (rst : RState) : Prop where
  root0 : alookup rst.node_costs root = some 0
  zeroRoot : ∀ v, alookup rst.node_costs v = some 0 → v = root
  entries : ∀ c v, (c, v) ∈ rst.pq → ∃ cv,
    alookup rst.node_costs v = some cv ∧ cv ≤ c
  queued : ∀ v c, alookup rst.node_costs v = some c →
    v ∈ visited ∨ (c, v) ∈ rst.pq
  parentEdge : ∀ v u, alookup rst.parents_map v = some u →
    edgeG g u v ∧ ∃ cu cv, alookup rst.node_costs u = some cu ∧
      alookup rst.node_costs v = some cv ∧ cu + 1 ≤ cv
  parentRoot : alookup rst.parents_map root = none
  hasParent : ∀ v c, alookup rst.node_costs v = some c →
    v = root ∨ ∃ u, alookup rst.parents_map v = some u
  visitedDist : ∀ v ∈ visited, ∃ c, alookup rst.node_costs v = some c ∧
    HasWalk g root v c ∧ ∀ n, HasWalk g root v n → c ≤ n
  relaxedExc : ∀ u ∈ visited, u ≠ node → ∀ lsiu, alookup g u = some lsiu →
    ∀ a ∈ lsiu.neighbour_list, a ∈ visited ∨
      ∃ cu ca, alookup rst.node_costs u = some cu ∧
        alookup rst.node_costs a = some ca ∧ ca ≤ cu + 1

/-- The invariant of the `__dijkstra__` loop. -/
structure DInv (g : List (Node × LinkStateIndividual)) (root : Node)
    (st : DState) : Prop where
  /-- The root's cost is 0 from initialisation on. -/
  root0 : alookup st.node_costs root = some 0
  /-- Only the root ever holds cost 0 (every relaxation stores `cost+1`). -/
  zeroRoot : ∀ v, alookup st.node_costs v = some 0 → v = root
  /-- Every heap entry's node has a stored cost bounded by its priority. -/
  entries : ∀ c v, (c, v) ∈ st.pq → ∃ cv,
    alookup st.node_costs v = some cv ∧ cv ≤ c
  /-- A costed node is visited or queued at exactly its current cost. -/
  queued : ∀ v c, alookup st.node_costs v = some c →
    v ∈ st.visited ∨ (c, v) ∈ st.pq
  /-- Every parent binding is an edge whose endpoints' costs differ by at
  least one. -/
  parentEdge : ∀ v u, alookup st.parents_map v = some u →
    edgeG g u v ∧ ∃ cu cv, alookup st.node_costs u = some cu ∧
      alookup st.node_costs v = some cv ∧ cu + 1 ≤ cv
  /-- The root is never re-parented. -/
  parentRoot : alookup st.parents_map root = none
  /-- Every costed node other than the root has a parent. -/
  hasParent : ∀ v c, alookup st.node_costs v = some c →
    v = root ∨ ∃ u, alookup st.parents_map v = some u
  /-- A visited node's cost is the length of a minimal walk from the
  root. -/
  visitedDist : ∀ v ∈ st.visited, ∃ c, alookup st.node_costs v = some c ∧
    HasWalk g root v c ∧ ∀ n, HasWalk g root v n → c ≤ n
  /-- Every edge out of a visited map node is relaxed: its target is
  visited or costed within one of the source. -/
  relaxed : ∀ u ∈ st.visited, ∀ lsi, alookup g u = some lsi →
    ∀ a ∈ lsi.neighbour_list, a ∈ st.visited ∨
      ∃ cu ca, alookup st.node_costs u = some cu ∧
        alookup st.node_costs a = some ca ∧ ca ≤ cu + 1

/-- Correctness of a (partial) forwarding table: every stored hop is the
first hop of some parent chain. -/
def tableOK (parents : List (Node × Node)) (root : Node)
    (table : List (Node × Node)) : Prop :=
  ∀ v h, alookup table v = some h → ∃ n, FirstHopChain parents root v h n

end Lab3

end CS640

namespace CS640

theorem alookup_aset_self {α β : Type} [DecidableEq α]
    (l : List (α × β)) (a : α) (b : β) : alookup (aset l a b) a = some b := by
  induction l with
  | nil => simp [aset, alookup]
  | cons e rest ih =>
    obtain ⟨k, v⟩ := e
    by_cases hk : k = a <;> simp [aset, alookup, hk, ih]

theorem alookup_aset_ne {α β : Type} [DecidableEq α]
    (l : List (α × β)) (a a' : α) (b : β) (h : a' ≠ a) :
    alookup (aset l a b) a' = alookup l a' := by
  have h' : a ≠ a' := Ne.symm h
  induction l with
  | nil => simp [aset, alookup, h']
  | cons e rest ih =>
    obtain ⟨k, v⟩ := e
    by_cases hk : k = a
    · subst hk
      simp [aset, alookup, h']
    · by_cases hk' : k = a' <;> simp [aset, alookup, hk, hk', ih, h, h']

theorem alookup_mem_keys {α β : Type} [DecidableEq α]
    {l : List (α × β)} {a : α} {b : β} (h : alookup l a = some b) :
    a ∈ l.map Prod.fst := by
  induction l with
  | nil => simp [alookup] at h
  | cons e rest ih =>
    obtain ⟨k, v⟩ := e
    by_cases hk : k = a
    · simp [hk]
    · simp only [alookup, hk, if_false] at h
      simp [ih h]

theorem alookup_not_mem_keys {α β : Type} [DecidableEq α]
    {l : List (α × β)} {a : α} (h : a ∉ l.map Prod.fst) :
    alookup l a = none := by
  induction l with
  | nil => rfl
  | cons e rest ih =>
    obtain ⟨k, v⟩ := e
    simp only [List.map_cons, List.mem_cons, not_or] at h
    have hk : k ≠ a := fun he => h.1 he.symm
    simp [alookup, hk, ih h.2]

/-- **C1 counterexample.**  The claim fixes the header layout at 22 bytes, but
encoding a concrete well-formed header yields 24 bytes (the format
`'!IHIHcIHI?'` measures 4+2+4+2+1+4+2+4+1 = 24), never 22. -/
theorem c1_counterexample :
    Lab3.exampleHeader.wellFormed ∧
    (Lab3.Header.to_bytes Lab3.exampleHeader).map List.length = some 24 ∧
    (Lab3.Header.to_bytes Lab3.exampleHeader).map List.length ≠ some 22 := by
  refine ⟨by decide, by decide, by decide⟩

/-- **C1 (amended).**  For every well-formed header `h` (valid packet type in
{R,D,E,A,L,T}, nonzero `src_ip`, fields within their fixed widths), encoding
succeeds, produces the fixed 24-byte big-endian layout, and decoding those
bytes returns exactly `h`:  `from_bytes (to_bytes h) = h`. -/
theorem c1_header_roundtrip (h : Lab3.Header) (hw : h.wellFormed) :
    ∃ bs, Lab3.Header.to_bytes h = some bs ∧ bs.length = Lab3.Header.header_size ∧
      Lab3.Header.from_bytes bs = some h := by
  obtain ⟨si, sp, di, dp, pt, sq, tl, pl, wr⟩ := h
  obtain ⟨hpt, hnz, h1, h2, h3, h4, h5, h6, h7⟩ := hw
  dsimp only at hpt hnz h1 h2 h3 h4 h5 h6 h7
  simp only [List.mem_cons, List.not_mem_nil, or_false] at hpt
  have hptlt : pt.toNat < 128 := by
    rcases hpt with hc | hc | hc | hc | hc | hc <;> rw [hc] <;> decide
  have hofNat : Char.ofNat pt.toNat = pt := by
    rcases hpt with hc | hc | hc | hc | hc | hc <;> rw [hc] <;> decide
  have hbytes : Lab3.Header.to_bytes ⟨si, sp, di, dp, pt, sq, tl, pl, wr⟩ =
      some (pack4 si ++ pack2 sp ++ pack4 di ++ pack2 dp ++
        [pt.toNat] ++ pack4 sq ++ pack2 tl ++
        pack4 pl ++ [if wr then 1 else 0]) := by
    unfold Lab3.Header.to_bytes
    rw [if_pos ⟨h1, h2, h3, h4, hptlt, h5, h6, h7⟩]
  refine ⟨_, hbytes, ?_, ?_⟩
  · simp [pack4, pack2, Lab3.Header.header_size]
  · simp only [pack4, pack2, List.cons_append, List.nil_append,
      Lab3.Header.from_bytes]
    have hcond : si / 16777216 % 256 < 256 ∧ si / 65536 % 256 < 256 ∧
        si / 256 % 256 < 256 ∧ si % 256 < 256 ∧ sp / 256 % 256 < 256 ∧
        sp % 256 < 256 ∧ di / 16777216 % 256 < 256 ∧ di / 65536 % 256 < 256 ∧
        di / 256 % 256 < 256 ∧ di % 256 < 256 ∧ dp / 256 % 256 < 256 ∧
        dp % 256 < 256 ∧ pt.toNat < 128 ∧ sq / 16777216 % 256 < 256 ∧
        sq / 65536 % 256 < 256 ∧ sq / 256 % 256 < 256 ∧ sq % 256 < 256 ∧
        tl / 256 % 256 < 256 ∧ tl % 256 < 256 ∧ pl / 16777216 % 256 < 256 ∧
        pl / 65536 % 256 < 256 ∧ pl / 256 % 256 < 256 ∧ pl % 256 < 256 ∧
        (if wr then 1 else 0) < 256 := by
      refine ⟨?_, ?_, ?_, ?_, ?_, ?_, ?_, ?_, ?_, ?_, ?_, ?_, hptlt,
        ?_, ?_, ?_, ?_, ?_, ?_, ?_, ?_, ?_, ?_, ?_⟩ <;>
        first
          | omega
          | (cases wr <;> norm_num)
    rw [if_pos hcond]
    simp only [Option.some.injEq, Lab3.Header.mk.injEq]
    refine ⟨?_, ?_, ?_, ?_, hofNat, ?_, ?_, ?_, ?_⟩ <;>
      first
        | (simp only [read4, read2]; omega)
        | (cases wr <;> rfl)

/-- **C1 witness.**  The round trip evaluated at a concrete header. -/
theorem c1_header_roundtrip_witness :
    Lab3.exampleHeader.wellFormed ∧
    ∃ bs, Lab3.Header.to_bytes Lab3.exampleHeader = some bs ∧
      bs.length = Lab3.Header.header_size ∧
      Lab3.Header.from_bytes bs = some Lab3.exampleHeader :=
  ⟨by decide, c1_header_roundtrip Lab3.exampleHeader (by decide)⟩

namespace Lab2

theorem getQ_ne_nil_mem_keys {q : QueueWithPriority} {p : Nat}
    (h : getQ q p ≠ []) : p ∈ q.queue_with_priority.map Prod.fst := by
  unfold getQ at h
  cases hl : alookup q.queue_with_priority p with
  | none => simp [hl] at h
  | some l => exact alookup_mem_keys hl

theorem minNonEmptyPriority_spec {q : QueueWithPriority} {p : Nat}
    (h : minNonEmptyPriority q = some p) :
    getQ q p ≠ [] ∧ ∀ p', getQ q p' ≠ [] → p ≤ p' := by
  unfold minNonEmptyPriority at h
  rw [List.min?_eq_some_iff'] at h
  obtain ⟨hmem, hle⟩ := h
  rw [List.mem_filter] at hmem
  constructor
  · intro hnil
    simp [hnil] at hmem
  · intro p' hp'
    exact hle p' (List.mem_filter.mpr ⟨getQ_ne_nil_mem_keys hp',
      by simp [List.isEmpty_iff, hp']⟩)

theorem minNonEmptyPriority_isSome {q : QueueWithPriority} {p₀ : Nat}
    (h : getQ q p₀ ≠ []) : ∃ p, minNonEmptyPriority q = some p := by
  unfold minNonEmptyPriority
  have hmem : p₀ ∈ (q.queue_with_priority.map Prod.fst).filter
      (fun p => !(getQ q p).isEmpty) :=
    List.mem_filter.mpr ⟨getQ_ne_nil_mem_keys h, by simp [List.isEmpty_iff, h]⟩
  cases hmin : ((q.queue_with_priority.map Prod.fst).filter
      (fun p => !(getQ q p).isEmpty)).min? with
  | none =>
    rw [List.min?_eq_none_iff] at hmin
    rw [hmin] at hmem
    cases hmem
  | some p => exact ⟨p, rfl⟩

/-- **C2.**  The delay-slot admission discipline of
`QueueWithPriority.send_packets_if_ready`:
(1) with an empty delay slot and at least two non-empty priority queues, one
tick moves exactly the head packet of the numerically smallest non-empty
priority queue into the slot, stamped with the current time, leaving every
other queue untouched;
(2) a packet occupying the slot is never replaced by a different packet in
one tick — the slot either keeps it or becomes empty (emission or loss);
(3) an arriving packet (`push_queue`) never touches the slot.
At most one packet can ever occupy the slot because `delay_packet` is a
single optional cell. -/
theorem c2_delay_slot_admission (rt : RoutingTable) (q : QueueWithPriority)
    (now rand : Nat) :
    (∀ p₁ p₂, q.delay_packet = none → p₁ ≠ p₂ →
      getQ q p₁ ≠ [] → getQ q p₂ ≠ [] →
      ∃ p pkt rest b',
        getQ q p = pkt :: rest ∧
        (∀ p', getQ q p' ≠ [] → p ≤ p') ∧
        send_packets_if_ready rt q now rand = some (b', []) ∧
        b'.delay_packet = some (now, pkt) ∧
        getQ b' p = rest ∧
        (∀ p', p' ≠ p → getQ b' p' = getQ q p') ∧
        b'.queue_size = q.queue_size) ∧
    (∀ x b' evs, q.delay_packet = some x →
      send_packets_if_ready rt q now rand = some (b', evs) →
      b'.delay_packet = some x ∨ b'.delay_packet = none) ∧
    (∀ pkt b' evs, push_queue rt q pkt = some (b', evs) →
      b'.delay_packet = q.delay_packet ∧ b'.queue_size = q.queue_size) := by
  refine ⟨?_, ?_, ?_⟩
  · intro p₁ p₂ hslot hne h₁ h₂
    obtain ⟨p, hmin⟩ := minNonEmptyPriority_isSome h₁
    obtain ⟨hpne, hple⟩ := minNonEmptyPriority_spec hmin
    cases hq : getQ q p with
    | nil => exact absurd hq hpne
    | cons pkt rest =>
      refine ⟨p, pkt, rest,
        { q with delay_packet := some (now, pkt),
                 queue_with_priority := aset q.queue_with_priority p rest },
        hq, hple, ?_, rfl, ?_, ?_, rfl⟩
      · simp only [send_packets_if_ready, hslot, hmin, hq]
      · simp only [getQ, alookup_aset_self, Option.getD_some]
      · intro p' hp'
        simp only [getQ, alookup_aset_ne _ _ _ _ hp']
  · intro x b' evs hslot hsend
    simp only [send_packets_if_ready, hslot] at hsend
    obtain ⟨t, pkt⟩ := x
    cases hh : Header.from_bytes (pkt.take HEADER_SIZE) with
    | none => simp [hh] at hsend
    | some h =>
      cases hhop : find_next_hop rt h with
      | none => simp [hh, hhop] at hsend
      | some hop =>
        simp only [hh, hhop] at hsend
        by_cases hnow : now ≤ t + hop.delay
        · rw [if_pos hnow] at hsend
          cases hsend
          exact Or.inl hslot
        · rw [if_neg hnow] at hsend
          by_cases hloss : rand ≤ hop.loss_probability ∧ h.packet_type ≠ 'E'
          · rw [if_pos hloss] at hsend
            cases hsend
            exact Or.inr rfl
          · rw [if_neg hloss] at hsend
            cases hsend
            exact Or.inr rfl
  · intro pkt b' evs hpush
    simp only [push_queue] at hpush
    cases hh : Header.from_bytes (pkt.take HEADER_SIZE) with
    | none => simp [hh] at hpush
    | some h =>
      cases hhop : find_next_hop rt h with
      | none =>
        simp only [hh, hhop] at hpush
        cases hpush
        exact ⟨rfl, rfl⟩
      | some hop =>
        simp only [hh, hhop] at hpush
        by_cases he : h.packet_type = 'E'
        · rw [if_pos he] at hpush
          cases hpush
          exact ⟨rfl, rfl⟩
        · rw [if_neg he] at hpush
          by_cases hfull : q.queue_size ≤ (getQ q h.priority).length
          · rw [if_pos hfull] at hpush
            cases hpush
            exact ⟨rfl, rfl⟩
          · rw [if_neg hfull] at hpush
            cases hpush
            exact ⟨rfl, rfl⟩

/-- **C2 witness.**  The admission discipline evaluated on a concrete bank
with non-empty queues at priorities 1 and 2 and an empty slot. -/
theorem c2_delay_slot_admission_witness :
    ∃ p pkt rest b',
      getQ bankTwo p = pkt :: rest ∧
      (∀ p', getQ bankTwo p' ≠ [] → p ≤ p') ∧
      send_packets_if_ready rtE bankTwo 100 1 = some (b', []) ∧
      b'.delay_packet = some (100, pkt) ∧
      getQ b' p = rest ∧
      (∀ p', p' ≠ p → getQ b' p' = getQ bankTwo p') ∧
      b'.queue_size = bankTwo.queue_size :=
  (c2_delay_slot_admission rtE bankTwo 100 1).1 2 1 rfl (by decide)
    (by decide) (by decide)

theorem push_queue_preserves_bounded {rt : RoutingTable}
    {q b' : QueueWithPriority} {pkt : List Nat} {evs : List Ev}
    (hb : queuesBounded q) (hpush : push_queue rt q pkt = some (b', evs)) :
    queuesBounded b' := by
  simp only [push_queue] at hpush
  cases hh : Header.from_bytes (pkt.take HEADER_SIZE) with
  | none => simp [hh] at hpush
  | some h =>
    cases hhop : find_next_hop rt h with
    | none =>
      simp only [hh, hhop] at hpush
      cases hpush
      exact hb
    | some hop =>
      simp only [hh, hhop] at hpush
      by_cases he : h.packet_type = 'E'
      · rw [if_pos he] at hpush
        cases hpush
        exact hb
      · rw [if_neg he] at hpush
        by_cases hfull : q.queue_size ≤ (getQ q h.priority).length
        · rw [if_pos hfull] at hpush
          cases hpush
          exact hb
        · rw [if_neg hfull] at hpush
          cases hpush
          intro p
          by_cases hp : p = h.priority
          · subst hp
            simp only [getQ, alookup_aset_self, Option.getD_some, List.length_append,
              List.length_cons, List.length_nil]
            have hlen := hb h.priority
            simp only [getQ] at hlen hfull
            omega
          · simpa only [getQ, alookup_aset_ne _ _ _ _ hp] using hb p

theorem pushMany_bounded {rt : RoutingTable} {q b : QueueWithPriority}
    {pkts : List (List Nat)} (hb : queuesBounded q)
    (hpush : pushMany rt q pkts = some b) : queuesBounded b := by
  induction pkts generalizing q with
  | nil =>
    simp only [pushMany] at hpush
    cases hpush
    exact hb
  | cons pkt rest ih =>
    simp only [pushMany] at hpush
    cases hp : push_queue rt q pkt with
    | none => simp [hp] at hpush
    | some r =>
      obtain ⟨q', evs⟩ := r
      rw [hp] at hpush
      exact ih (push_queue_preserves_bounded hb hp) hpush

/-- **C3.**  Tail-drop admission:
(1) an arriving packet whose target queue already holds `queue_size` packets
is itself dropped, with the logged reason naming the full queue, and the
whole bank (hence every already-queued packet) is left unchanged;
(2) one `push_queue` call preserves the bound `length ≤ queue_size` on every
per-priority queue;
(3) hence along any sequence of `push_queue` calls starting from the freshly
constructed bank, no queue ever exceeds `queue_size`. -/
theorem c3_tail_drop (rt : RoutingTable) (q : QueueWithPriority) :
    (∀ pkt h hop, Header.from_bytes (pkt.take HEADER_SIZE) = some h →
      find_next_hop rt h = some hop → h.packet_type ≠ 'E' →
      q.queue_size ≤ (getQ q h.priority).length →
      push_queue rt q pkt = some (q, [Ev.lossQueueFull h.priority])) ∧
    (∀ pkt b' evs, queuesBounded q → push_queue rt q pkt = some (b', evs) →
      queuesBounded b') ∧
    (∀ size pkts b, pushMany rt (initialBank size) pkts = some b →
      queuesBounded b) := by
  refine ⟨?_, ?_, ?_⟩
  · intro pkt h hop hh hhop he hfull
    simp only [push_queue, hh, hhop, if_neg he, if_pos hfull]
  · intro pkt b' evs hb hpush
    exact push_queue_preserves_bounded hb hpush
  · intro size pkts b hpush
    refine pushMany_bounded ?_ hpush
    intro p
    simp [initialBank, getQ, alookup]

/-- **C3 witness.**  A full priority-1 queue (`queue_size = 1`) tail-drops
the new arrival and keeps the bank unchanged; the bound holds after a burst
into a fresh bank. -/
theorem c3_tail_drop_witness :
    push_queue rtE bankFull (mkPkt 49 68) =
      some (bankFull, [Ev.lossQueueFull 1]) ∧
    queuesBounded bankFull ∧
    ∀ b, pushMany rtE (initialBank 1) [mkPkt 49 68, mkPkt 49 68, mkPkt 49 68] =
      some b → queuesBounded b := by
  refine ⟨?_, ?_, ?_⟩
  · exact (c3_tail_drop rtE bankFull).1 (mkPkt 49 68)
      { priority := 1, src_ip := 167772161, src_port := 5000,
        dst_ip := 167772162, dst_port := 6000, outer_length := 5,
        packet_type := 'D' }
      ⟨167772163, 7000, 10, 50⟩ (by decide) (by decide) (by decide) (by decide)
  · intro p
    by_cases hp : (1 : Nat) = p <;> simp [bankFull, getQ, alookup, hp, mkPkt]
  · intro b hb
    exact (c3_tail_drop rtE bankFull).2.2 1 _ b hb

/-- **C4.**  Type-`E` special-casing:
(1) an `E` packet with a route is forwarded immediately by `push_queue`,
regardless of queue occupancy, and the bank (so every queue) is unchanged —
it is never enqueued;
(2) once its delay has elapsed, an `E` packet in the slot is emitted for
every value of the loss draw — the probabilistic loss drop never applies;
(3) a non-`E` packet in the same position is loss-dropped whenever the draw
does not exceed the loss probability, i.e. only non-`E` packets are subject
to the loss decision. -/
theorem c4_etype_bypass (rt : RoutingTable) (q : QueueWithPriority)
    (now : Nat) :
    (∀ pkt h hop, Header.from_bytes (pkt.take HEADER_SIZE) = some h →
      find_next_hop rt h = some hop → h.packet_type = 'E' →
      push_queue rt q pkt =
        some (q, [Ev.sent (hop.next_hop_ip, hop.next_hop_port) pkt])) ∧
    (∀ t pkt h hop rand, q.delay_packet = some (t, pkt) →
      Header.from_bytes (pkt.take HEADER_SIZE) = some h →
      find_next_hop rt h = some hop → h.packet_type = 'E' →
      t + hop.delay < now →
      send_packets_if_ready rt q now rand =
        some ({ q with delay_packet := none },
              [Ev.sent (hop.next_hop_ip, hop.next_hop_port) pkt])) ∧
    (∀ t pkt h hop rand, q.delay_packet = some (t, pkt) →
      Header.from_bytes (pkt.take HEADER_SIZE) = some h →
      find_next_hop rt h = some hop → h.packet_type ≠ 'E' →
      t + hop.delay < now → rand ≤ hop.loss_probability →
      send_packets_if_ready rt q now rand =
        some ({ q with delay_packet := none }, [Ev.lossRandom])) := by
  refine ⟨?_, ?_, ?_⟩
  · intro pkt h hop hh hhop he
    simp only [push_queue, hh, hhop, if_pos he]
  · intro t pkt h hop rand hslot hh hhop he hnow
    have hwait : ¬ now ≤ t + hop.delay := by omega
    have hloss : ¬ (rand ≤ hop.loss_probability ∧ h.packet_type ≠ 'E') := by
      simp [he]
    simp only [send_packets_if_ready, hslot, hh, hhop, if_neg hwait,
      if_neg hloss]
  · intro t pkt h hop rand hslot hh hhop he hnow hrand
    have hwait : ¬ now ≤ t + hop.delay := by omega
    have hcond : rand ≤ hop.loss_probability ∧ h.packet_type ≠ 'E' :=
      ⟨hrand, he⟩
    simp only [send_packets_if_ready, hslot, hh, hhop, if_neg hwait,
      if_pos hcond]

/-- **C4 witness.**  The `E`-bypass evaluated concretely: immediate forward
on arrival, emission from the slot under a losing draw, and the loss drop of
the corresponding `D` packet under the same draw. -/
theorem c4_etype_bypass_witness :
    push_queue rtE bankFull (mkPkt 49 69) =
      some (bankFull, [Ev.sent (167772163, 7000) (mkPkt 49 69)]) ∧
    send_packets_if_ready rtE bankSlotE 100 1 =
      some ({ bankSlotE with delay_packet := none },
            [Ev.sent (167772163, 7000) (mkPkt 49 69)]) ∧
    send_packets_if_ready rtE bankSlot 100 1 =
      some ({ bankSlot with delay_packet := none }, [Ev.lossRandom]) := by
  refine ⟨?_, ?_, ?_⟩
  · exact (c4_etype_bypass rtE bankFull 100).1 (mkPkt 49 69)
      { priority := 1, src_ip := 167772161, src_port := 5000,
        dst_ip := 167772162, dst_port := 6000, outer_length := 5,
        packet_type := 'E' }
      ⟨167772163, 7000, 10, 50⟩ (by decide) (by decide) (by decide)
  · exact (c4_etype_bypass rtE bankSlotE 100).2.1 0 (mkPkt 49 69)
      { priority := 1, src_ip := 167772161, src_port := 5000,
        dst_ip := 167772162, dst_port := 6000, outer_length := 5,
        packet_type := 'E' }
      ⟨167772163, 7000, 10, 50⟩ 1 rfl (by decide) (by decide) (by decide)
      (by decide)
  · exact (c4_etype_bypass rtE bankSlot 100).2.2 0 (mkPkt 49 68)
      { priority := 1, src_ip := 167772161, src_port := 5000,
        dst_ip := 167772162, dst_port := 6000, outer_length := 5,
        packet_type := 'D' }
      ⟨167772163, 7000, 10, 50⟩ 1 rfl (by decide) (by decide) (by decide)
      (by decide) (by decide)

end Lab2

namespace Sender

/-- **C9.**  One call of `retransmit_or_print_error` (the sender tick):
every slot is rewritten by `slotStep` — a retired slot (`-1`) is untouched,
a slot whose counter has reached `MAX_RETRIES = 5` is retired as failed
instead of being retransmitted, a non-retired slot whose
`last_transmit_time + timeout` is in the past is retransmitted with its
counter incremented and its transmit time refreshed, and any other slot is
untouched; the emitted actions are exactly `slotEvents` per slot in window
order; and the call returns `true` iff every slot in the window is retired
(read at the start of the call, matching `all_packet_done &= (count == -1)`
folded over the pre-update counters). -/
theorem c9_window_tick (timeout now : Nat) (w : List (Nat × PacketData)) :
    retransmit_or_print_error timeout now w =
      (w.all (fun e => e.2.retransmit_count == -1),
       w.map (fun e => (e.1, slotStep timeout now e.2)),
       (w.map (slotEvents timeout now)).flatten) ∧
    ((retransmit_or_print_error timeout now w).1 = true ↔
      ∀ e ∈ w, e.2.retransmit_count = -1) := by
  have hmain : retransmit_or_print_error timeout now w =
      (w.all (fun e => e.2.retransmit_count == -1),
       w.map (fun e => (e.1, slotStep timeout now e.2)),
       (w.map (slotEvents timeout now)).flatten) := by
    induction w with
    | nil => rfl
    | cons e rest ih =>
      obtain ⟨seq, d⟩ := e
      by_cases h1 : d.retransmit_count = -1
      · simp [retransmit_or_print_error, slotStep, slotEvents, h1, ih]
      · by_cases h2 : d.retransmit_count = 5
        · simp [retransmit_or_print_error, slotStep, slotEvents, h1, h2, ih]
        · by_cases h3 : d.last_transmit_time + timeout < now
          · simp [retransmit_or_print_error, slotStep, slotEvents, h1, h2, h3, ih]
          · simp [retransmit_or_print_error, slotStep, slotEvents, h1, h2, h3, ih]
  refine ⟨hmain, ?_⟩
  rw [hmain]
  simp [List.all_eq_true]

/-- **C9 witness** is not required (the theorem has no hypotheses); this
corollary evaluates the tick on a concrete window anyway: the retired slot
stays, the `MAX_RETRIES` slot is retired as failed, the stale slot is
retransmitted, and the call returns `false`. -/
theorem c9_window_tick_example :
    retransmit_or_print_error 100 500 exampleWindow =
      (false,
       [(1, ⟨-1, 0, [1, 2]⟩), (2, ⟨-1, 0, [3, 4]⟩), (3, ⟨1, 500, [5, 6]⟩)],
       [SEv.failed 2, SEv.retransmitted 3 [5, 6]]) := by
  rw [(c9_window_tick 100 500 exampleWindow).1]
  decide

/-- **C10.**  `ack_packet` with a sequence number that is not a key of the
window is a no-op: the window is returned unchanged, so every slot keeps its
`retransmit_count`, `last_transmit_time` and packet bytes, and no slot is
added or removed. -/
theorem c10_ack_unknown_seq_frame (w : List (Nat × PacketData)) (seq : Nat)
    (h : alookup w seq = none) :
    ack_packet w seq = w ∧
    (∀ s, alookup (ack_packet w seq) s = alookup w s) ∧
    (ack_packet w seq).length = w.length := by
  have he : ack_packet w seq = w := by
    simp [ack_packet, h]
  exact ⟨he, fun s => by rw [he], by rw [he]⟩

/-- **C10 witness.**  Acknowledging the absent sequence number 7 leaves the
concrete window untouched. -/
theorem c10_ack_unknown_seq_frame_witness :
    ack_packet exampleWindow 7 = exampleWindow ∧
    (∀ s, alookup (ack_packet exampleWindow 7) s = alookup exampleWindow s) ∧
    (ack_packet exampleWindow 7).length = exampleWindow.length :=
  c10_ack_unknown_seq_frame exampleWindow 7 (by decide)

end Sender

theorem aset_eq_self_of_lookup {α β : Type} [DecidableEq α]
    {l : List (α × β)} {a : α} {b : β} (h : alookup l a = some b) :
    aset l a b = l := by
  induction l with
  | nil => simp [alookup] at h
  | cons kv rest ih =>
    obtain ⟨k, v⟩ := kv
    simp only [alookup] at h
    by_cases hk : k = a
    · rw [if_pos hk] at h
      cases h
      subst hk
      simp [aset]
    · rw [if_neg hk] at h
      simp [aset, hk, ih h]

namespace Lab3

theorem mem_setAdd {l : List Node} {x y : Node} :
    x ∈ setAdd l y ↔ x ∈ l ∨ x = y := by
  unfold setAdd
  by_cases h : y ∈ l
  · simp only [h, if_true]
    constructor
    · exact Or.inl
    · rintro (hx | rfl)
      · exact hx
      · exact h
  · simp [h]

theorem mem_foldl_setAdd (l : List Node) (acc : List Node) (x : Node) :
    x ∈ l.foldl setAdd acc ↔ x ∈ acc ∨ x ∈ l := by
  induction l generalizing acc with
  | nil => simp
  | cons a rest ih =>
    simp only [List.foldl_cons, ih, mem_setAdd, List.mem_cons]
    tauto

/-- **C5.**  `update_link_states` on a flood `(src, new_seq_no, nbrs)` whose
origin is already tracked: it always returns the previously stored
`seq_no`; when `new_seq_no` is strictly greater it replaces the stored
neighbour set with exactly the flooded list (as a set), stores `new_seq_no`,
and rebuilds the forwarding table from the updated database (the result is
precisely `build_forward_table` of the updated graph); when `new_seq_no` is
not greater — in particular equal — the graph, hence the stored record, is
returned completely unchanged. -/
theorem c5_flood_update (g : LinkGraph) (src : Node) (nbrs : List Node)
    (new_seq : Nat) (lsi : LinkStateIndividual)
    (hfound : alookup g.link_state_map src = some lsi)
    (hline : (lsi.source_ip, lsi.source_port) = src) :
    g.update_link_states src (src, nbrs) new_seq =
      (if lsi.seq_no < new_seq then
        (LinkGraph.build_forward_table
          { g with
            link_state_map := aset g.link_state_map src { lsi with
              seq_no := new_seq,
              neighbour_list := nbrs.foldl setAdd [] } }).map
          (fun g3 => (lsi.seq_no, g3))
      else some (lsi.seq_no, g)) ∧
    (∀ x, x ∈ nbrs.foldl setAdd [] ↔ x ∈ nbrs) := by
  constructor
  · unfold LinkGraph.update_link_states
    simp only [hfound, Option.isSome_some, if_true]
    by_cases hseq : lsi.seq_no < new_seq
    · simp only [LinkStateIndividual.update_neighbours, hseq, if_true,
        hline, if_pos rfl]
    · simp only [LinkStateIndividual.update_neighbours, hseq, if_false]
      rw [aset_eq_self_of_lookup hfound]
  · intro x
    simp [mem_foldl_setAdd]

/-- **C5 witness.**  A flood carrying the origin's own current sequence
number (0) leaves the one-node graph entirely unchanged and reports the old
sequence number; the dedup of the flooded neighbour list keeps exactly its
members. -/
theorem c5_flood_update_witness :
    graphOne.update_link_states (10, 1) ((10, 1), [(20, 2), (20, 2), (30, 3)])
      0 = some (0, graphOne) ∧
    (∀ x, x ∈ ([((20 : Nat), (2 : Nat)), (20, 2), (30, 3)] :
        List Node).foldl setAdd [] ↔ x ∈
      ([((20 : Nat), (2 : Nat)), (20, 2), (30, 3)] : List Node)) := by
  have h := c5_flood_update graphOne (10, 1) [(20, 2), (20, 2), (30, 3)] 0
    lsiZero (by decide) (by decide)
  refine ⟨?_, h.2⟩
  rw [h.1]
  decide

/-- **C7 (code bug).**  The TTL-expiry reply for a remote `T` source: on the
concrete expired trace packet `pktT`, `drop_packet` builds a reply wrapped
at both layers with the addresses swapped and forwards it via the
forwarding table toward the originator — but while the outer header carries
`ttl = TTL_MAX` (49 on the wire after the forwarding decrement), the inner
header's `ttl` is 1, not `TTL_MAX`: the source's
`new_inner_header.tll = TTL_MAX` writes a misspelled attribute and never
reaches the `ttl` field. -/
theorem c7_ttl_reply_inner_ttl :
    (LinkMaintenance.drop_packet lmT pktT).map
      (fun evs => evs.map (fun ev =>
        (ev.dst,
         (Header.from_bytes (ev.pkt.take 24)).map
           (fun h => (h.ttl, h.wrapped, h.src_ip, h.src_port, h.dst_ip,
             h.dst_port)),
         (Header.from_bytes ((ev.pkt.drop 24).take 24)).map
           (fun h => (h.ttl, h.wrapped, h.src_ip, h.src_port))))) =
      some [((167772204, 3000),
             some (49, true, 167772161, 1000, 167772200, 2000),
             some (1, false, 167772161, 1000))] ∧
    (1 : Nat) ≠ TTL_MAX := by
  exact ⟨by rfl, by decide⟩

/-- **C8 counterexample.**  A wrapped `R` packet addressed to the local
emulator whose inner destination is *not* a registered client is not
delivered at all — `forward_packet` returns no send event, refuting the
claim that the inner packet is always sent to `(inner.dst_ip,
inner.dst_port)`. -/
theorem c8_counterexample :
    LinkMaintenance.forward_packet lmW pktW = some (lmW, []) ∧
    ([] : List NetEv) ≠
      [NetEv.sent (167772169, 4000) (List.drop 24 pktW)] := by
  exact ⟨by decide, by decide⟩

/-- **C8 (amended).**  For every data-plane packet (type R, D, E or T)
whose outer destination is the local emulator, whose outer header is
wrapped, and whose inner header is unwrapped, the pipeline strips the outer
header and sends the inner packet (inner header plus payload, unmodified)
directly to `(inner.dst_ip, inner.dst_port)` — provided that address is a
registered client; otherwise nothing is sent.  The emulator state is
unchanged either way. -/
theorem c8_deliver_to_client (lm : LinkMaintenance) (pkt : List Nat)
    (h ih : Header)
    (hh : Header.from_bytes (pkt.take Header.header_size) = some h)
    (htype : h.packet_type ∈ ['R', 'D', 'E', 'T'])
    (hdst : h.dst_ip = lm.self_ip ∧ h.dst_port = lm.self_port)
    (hwrap : h.wrapped = true)
    (hsrc : ¬(h.src_ip = lm.self_ip ∧ h.src_port = lm.self_port))
    (hih : Header.from_bytes ((pkt.drop Header.header_size).take
      Header.header_size) = some ih)
    (hiw : ih.wrapped = false) :
    lm.forward_packet pkt =
      some (lm, if (ih.dst_ip, ih.dst_port) ∈ lm.registered_clients then
        [NetEv.sent (ih.dst_ip, ih.dst_port) (pkt.drop Header.header_size)]
      else []) := by
  have hL : h.packet_type ≠ 'L' := by
    simp only [List.mem_cons, List.not_mem_nil, or_false] at htype
    rcases htype with hc | hc | hc | hc <;> rw [hc] <;> decide
  have hA : h.packet_type ≠ 'A' := by
    simp only [List.mem_cons, List.not_mem_nil, or_false] at htype
    rcases htype with hc | hc | hc | hc <;> rw [hc] <;> decide
  unfold LinkMaintenance.forward_packet
  rw [hh]
  simp only [if_neg hL, if_neg hsrc, if_neg hA,
    if_pos (And.intro htype (And.intro hdst.1 hdst.2))]
  unfold LinkMaintenance.send_packet_to_client
  rw [hh]
  simp only [hwrap, if_pos rfl, if_pos hdst, hih, hiw,
    Bool.false_eq_true, if_pos rfl]
  by_cases hmem : (ih.dst_ip, ih.dst_port) ∈ lm.registered_clients
  · rw [if_pos hmem, if_pos hmem]
    rfl
  · rw [if_neg hmem, if_neg hmem]
    rfl

/-- **C8 witness.**  With the inner destination registered, the concrete
wrapped packet is unwrapped and the inner packet goes to the client. -/
theorem c8_deliver_to_client_witness :
    LinkMaintenance.forward_packet lmWreg pktW =
      some (lmWreg, [NetEv.sent (167772169, 4000) (List.drop 24 pktW)]) := by
  have h := c8_deliver_to_client lmWreg pktW
    { src_ip := 167772200, src_port := 2000, dst_ip := 167772161,
      dst_port := 1000, packet_type := 'R', seq_no := 0, ttl := 5,
      payload_length := 24, wrapped := true }
    { src_ip := 167772200, src_port := 2000, dst_ip := 167772169,
      dst_port := 4000, packet_type := 'R', seq_no := 0, ttl := 2,
      payload_length := 0, wrapped := false }
    (by decide) (by decide) (by decide) (by decide) (by decide) (by decide)
    (by decide)
  rw [h]
  decide

theorem entryLe_refl (x : Nat × Node) : entryLe x x = true := by
  simp [entryLe]

theorem entryLe_total (x y : Nat × Node) :
    entryLe x y = true ∨ entryLe y x = true := by
  simp only [entryLe, Bool.or_eq_true, Bool.and_eq_true, decide_eq_true_eq]
  omega

theorem entryLe_trans {x y z : Nat × Node} (h1 : entryLe x y = true)
    (h2 : entryLe y z = true) : entryLe x z = true := by
  simp only [entryLe, Bool.or_eq_true, Bool.and_eq_true,
    decide_eq_true_eq] at h1 h2 ⊢
  omega

theorem entryLe_fst {x y : Nat × Node} (h : entryLe x y = true) :
    x.1 ≤ y.1 := by
  simp only [entryLe, Bool.or_eq_true, Bool.and_eq_true,
    decide_eq_true_eq] at h
  omega

theorem minEntry_mem (x : Nat × Node) (xs : List (Nat × Node)) :
    minEntry x xs ∈ x :: xs := by
  induction xs generalizing x with
  | nil => simp [minEntry]
  | cons z zs ih =>
    have h2 := ih (if entryLe x z then x else z)
    simp only [minEntry, List.foldl_cons] at h2 ⊢
    rcases List.mem_cons.mp h2 with h3 | h3
    · rw [h3]
      by_cases hz : entryLe x z <;> simp [hz]
    · simp [h3]

theorem minEntry_le (x : Nat × Node) (xs : List (Nat × Node)) :
    ∀ e ∈ x :: xs, entryLe (minEntry x xs) e = true := by
  induction xs generalizing x with
  | nil =>
    intro e he
    simp only [List.mem_singleton] at he
    subst he
    exact entryLe_refl _
  | cons z zs ih =>
    intro e he
    have hstep : minEntry x (z :: zs) = minEntry (if entryLe x z then x
        else z) zs := by
      simp [minEntry]
    have hle_x : entryLe (if entryLe x z then x else z) x = true := by
      by_cases hz : entryLe x z
      · simp [hz, entryLe_refl]
      · rcases entryLe_total x z with h | h
        · exact absurd h hz
        · simp [hz, h]
    have hle_z : entryLe (if entryLe x z then x else z) z = true := by
      by_cases hz : entryLe x z <;> simp [hz, entryLe_refl]
    have hmin_head : entryLe (minEntry (if entryLe x z then x else z) zs)
        (if entryLe x z then x else z) = true :=
      ih _ _ (List.mem_cons_self _ _)
    rcases List.mem_cons.mp he with rfl | he'
    · rw [hstep]
      exact entryLe_trans hmin_head hle_x
    · rcases List.mem_cons.mp he' with rfl | he''
      · rw [hstep]
        exact entryLe_trans hmin_head hle_z
      · rw [hstep]
        exact ih _ _ (List.mem_cons_of_mem _ he'')

theorem perm_removeFirst {l : List (Nat × Node)} {m : Nat × Node}
    (h : m ∈ l) : l.Perm (m :: removeFirst l m) := by
  induction l with
  | nil => cases h
  | cons x xs ih =>
    by_cases hx : x = m
    · subst hx
      simp [removeFirst]
    · rcases List.mem_cons.mp h with h3 | h3
      · exact absurd h3.symm hx
      · simp only [removeFirst, hx, if_false]
        exact ((ih h3).cons x).trans (List.Perm.swap m x _)

theorem popMin_eq_none {l : List (Nat × Node)} :
    popMin l = none ↔ l = [] := by
  cases l <;> simp [popMin]

theorem popMin_spec {l : List (Nat × Node)} {m : Nat × Node}
    {rest : List (Nat × Node)} (h : popMin l = some (m, rest)) :
    m ∈ l ∧ (∀ e ∈ l, m.1 ≤ e.1) ∧ l.Perm (m :: rest) := by
  cases l with
  | nil => simp [popMin] at h
  | cons x xs =>
    simp only [popMin, Option.some.injEq, Prod.mk.injEq] at h
    obtain ⟨hm, hrest⟩ := h
    subst hm
    refine ⟨minEntry_mem x xs, ?_, ?_⟩
    · intro e he
      exact entryLe_fst (minEntry_le x xs e he)
    · rw [← hrest]
      exact perm_removeFirst (minEntry_mem x xs)

theorem hasWalk_append_edge {g : List (Node × LinkStateIndividual)}
    {u v w : Node} {n : Nat} (hw : HasWalk g u v n) (he : edgeG g v w) :
    HasWalk g u w (n + 1) := by
  induction hw with
  | refl => exact HasWalk.cons he (HasWalk.refl _)
  | cons he' _ ih => exact HasWalk.cons he' (ih he)

theorem alookup_det {α β : Type} [DecidableEq α] {l : List (α × β)} {a : α}
    {b b' : β} (h : alookup l a = some b) (h' : alookup l a = some b') :
    b = b' := by
  rw [h] at h'
  cases h'
  rfl

theorem cost_realizable {g : List (Node × LinkStateIndividual)} {root : Node}
    {st : DState} (inv : DInv g root st) :
    ∀ cv v, alookup st.node_costs v = some cv →
      ∃ L, L ≤ cv ∧ HasWalk g root v L := by
  intro cv
  induction cv using Nat.strong_induction_on with
  | _ cv ih =>
    intro v hv
    by_cases hvr : v = root
    · subst hvr
      exact ⟨0, Nat.zero_le _, HasWalk.refl _⟩
    · rcases inv.hasParent v cv hv with hr | ⟨u, hu⟩
      · exact absurd hr hvr
      · obtain ⟨hedge, cu, cv', hcu, hcv', hle⟩ := inv.parentEdge v u hu
        have hcveq : cv = cv' := alookup_det hv hcv'
        subst hcveq
        have hcult : cu < cv := by omega
        obtain ⟨L, hL, hwalk⟩ := ih cu hcult u hcu
        exact ⟨L + 1, by omega, hasWalk_append_edge hwalk hedge⟩

theorem frontier {g : List (Node × LinkStateIndividual)} {root : Node}
    {st : DState} (inv : DInv g root st) :
    ∀ {n : Nat} {u v : Node}, HasWalk g u v n → u ∈ st.visited →
    ∀ cu, alookup st.node_costs u = some cu →
    v ∈ st.visited ∨ ∃ x cx, alookup st.node_costs x = some cx ∧
      (cx, x) ∈ st.pq ∧ cx ≤ cu + n := by
  intro n u v hw
  induction hw with
  | refl v =>
    intro hu _ _
    exact Or.inl hu
  | @cons u v w n he hw' ih =>
    intro hu cu hcu
    obtain ⟨lsi, hlsi, hmem⟩ := he
    by_cases hv : v ∈ st.visited
    · obtain ⟨cv, hcv, hwalkv, hminv⟩ := inv.visitedDist v hv
      obtain ⟨cu0, hcu0, hwalku, hminu⟩ := inv.visitedDist u hu
      have hcueq : cu0 = cu := alookup_det hcu0 hcu
      subst hcueq
      have hwv : HasWalk g root v (cu0 + 1) :=
        hasWalk_append_edge hwalku ⟨lsi, hlsi, hmem⟩
      have hcvle : cv ≤ cu0 + 1 := hminv _ hwv
      rcases ih hv cv hcv with hw2 | ⟨x, cx, h1, h2, h3⟩
      · exact Or.inl hw2
      · exact Or.inr ⟨x, cx, h1, h2, by omega⟩
    · rcases inv.relaxed u hu lsi hlsi v hmem with hv2 |
        ⟨cu1, ca, hcu1, hca, hle⟩
      · exact absurd hv2 hv
      · have hcueq : cu1 = cu := alookup_det hcu1 hcu
        subst hcueq
        rcases inv.queued v ca hca with hv2 | hq
        · exact absurd hv2 hv
        · exact Or.inr ⟨v, ca, hca, hq, by omega⟩

theorem pop_minimal {g : List (Node × LinkStateIndividual)} {root : Node}
    {st : DState} (inv : DInv g root st) {c : Nat} {w : Node}
    {rest : List (Nat × Node)}
    (hpop : popMin st.pq = some ((c, w), rest)) (hwv : w ∉ st.visited) :
    alookup st.node_costs w = some c ∧ HasWalk g root w c ∧
      ∀ n, HasWalk g root w n → c ≤ n := by
  obtain ⟨hmem, hmin, hperm⟩ := popMin_spec hpop
  obtain ⟨cw, hcw, hle⟩ := inv.entries c w hmem
  have hq := (inv.queued w cw hcw).resolve_left hwv
  have hge : c ≤ cw := hmin (cw, w) hq
  have hceq : cw = c := le_antisymm hle hge
  subst hceq
  have hminpart : ∀ n, HasWalk g root w n → cw ≤ n := by
    intro n hwalk
    by_cases hroot : root ∈ st.visited
    · rcases frontier inv hwalk hroot 0 inv.root0 with hv | ⟨x, cx, h1, h2, h3⟩
      · exact absurd hv hwv
      · have := hmin (cx, x) h2
        simp only at this
        omega
    · have hrq := (inv.queued root 0 inv.root0).resolve_left hroot
      have := hmin (0, root) hrq
      simp only at this
      omega
  obtain ⟨L, hL, hwalkL⟩ := cost_realizable inv cw w hcw
  have hLge : cw ≤ L := hminpart L hwalkL
  have hLeq : L = cw := by omega
  subst hLeq
  exact ⟨hcw, hwalkL, hminpart⟩

theorem relax_step_inv {g : List (Node × LinkStateIndividual)} {root : Node}
    {visited : List Node} {node : Node} {cn : Nat}
    {lsi : LinkStateIndividual} (hlsi : alookup g node = some lsi)
    (hnodev : node ∈ visited) {a : Node} (ha : a ∈ lsi.neighbour_list)
    {rst : RState} (hcn : alookup rst.node_costs node = some cn)
    (hmid : MidInv g root visited node rst) (hav : a ∉ visited)
    (hbound : ∀ cadj, alookup rst.node_costs a = some cadj → cn + 1 < cadj) :
    MidInv g root visited node
      ⟨aset rst.parents_map a node, (cn + 1, a) :: rst.pq,
       aset rst.node_costs a (cn + 1)⟩ ∧
    alookup (aset rst.node_costs a (cn + 1)) node = some cn ∧
    (∃ ca, alookup (aset rst.node_costs a (cn + 1)) a = some ca ∧
      ca ≤ cn + 1) ∧
    (∀ v ∈ visited, alookup (aset rst.node_costs a (cn + 1)) v =
      alookup rst.node_costs v) ∧
    (∀ v c, alookup rst.node_costs v = some c →
      ∃ c', alookup (aset rst.node_costs a (cn + 1)) v = some c' ∧
        c' ≤ c) := by
  have hanr : a ≠ root := by
    intro h
    subst h
    have := hbound 0 hmid.root0
    omega
  have hann : a ≠ node := fun h => hav (h ▸ hnodev)
  refine ⟨⟨?_, ?_, ?_, ?_, ?_, ?_, ?_, ?_, ?_⟩, ?_, ?_, ?_, ?_⟩
  · rw [alookup_aset_ne rst.node_costs a root (cn + 1) (Ne.symm hanr)]
    exact hmid.root0
  · intro v hv
    by_cases hvA : v = a
    · subst hvA
      rw [alookup_aset_self] at hv
      cases hv
    · rw [alookup_aset_ne rst.node_costs a v (cn + 1) hvA] at hv
      exact hmid.zeroRoot v hv
  · intro c v hcv
    rcases List.mem_cons.mp hcv with heq | hmem2
    · cases heq
      exact ⟨cn + 1, alookup_aset_self _ _ _, le_refl _⟩
    · by_cases hvA : v = a
      · subst hvA
        obtain ⟨cv, hC, hle⟩ := hmid.entries c v hmem2
        have := hbound cv hC
        exact ⟨cn + 1, alookup_aset_self _ _ _, by omega⟩
      · obtain ⟨cv, hC, hle⟩ := hmid.entries c v hmem2
        refine ⟨cv, ?_, hle⟩
        rw [alookup_aset_ne rst.node_costs a v (cn + 1) hvA]
        exact hC
  · intro v c hv
    by_cases hvA : v = a
    · subst hvA
      rw [alookup_aset_self] at hv
      cases hv
      exact Or.inr (List.mem_cons_self _ _)
    · rw [alookup_aset_ne rst.node_costs a v (cn + 1) hvA] at hv
      rcases hmid.queued v c hv with h | h
      · exact Or.inl h
      · exact Or.inr (List.mem_cons_of_mem _ h)
  · intro v u hpu
    by_cases hvA : v = a
    · subst hvA
      rw [alookup_aset_self] at hpu
      cases hpu
      refine ⟨⟨lsi, hlsi, ha⟩, cn, cn + 1, ?_, alookup_aset_self _ _ _,
        le_refl _⟩
      rw [alookup_aset_ne rst.node_costs v node (cn + 1) (Ne.symm hann)]
      exact hcn
    · rw [alookup_aset_ne rst.parents_map a v node hvA] at hpu
      obtain ⟨hedge, cu, cv, hcu, hcv, hle⟩ := hmid.parentEdge v u hpu
      refine ⟨hedge, ?_⟩
      by_cases huA : u = a
      · subst huA
        have := hbound cu hcu
        refine ⟨cn + 1, cv, alookup_aset_self _ _ _, ?_, by omega⟩
        rw [alookup_aset_ne rst.node_costs u v (cn + 1) hvA]
        exact hcv
      · refine ⟨cu, cv, ?_, ?_, hle⟩
        · rw [alookup_aset_ne rst.node_costs a u (cn + 1) huA]
          exact hcu
        · rw [alookup_aset_ne rst.node_costs a v (cn + 1) hvA]
          exact hcv
  · rw [alookup_aset_ne rst.parents_map a root node (Ne.symm hanr)]
    exact hmid.parentRoot
  · intro v c hv
    by_cases hvA : v = a
    · subst hvA
      exact Or.inr ⟨node, alookup_aset_self _ _ _⟩
    · rw [alookup_aset_ne rst.node_costs a v (cn + 1) hvA] at hv
      rcases hmid.hasParent v c hv with h | ⟨u, hu⟩
      · exact Or.inl h
      · refine Or.inr ⟨u, ?_⟩
        rw [alookup_aset_ne rst.parents_map a v node hvA]
        exact hu
  · intro v hvv
    have hvna : v ≠ a := fun h => hav (h ▸ hvv)
    obtain ⟨c, hc, hw, hm⟩ := hmid.visitedDist v hvv
    refine ⟨c, ?_, hw, hm⟩
    rw [alookup_aset_ne rst.node_costs a v (cn + 1) hvna]
    exact hc
  · intro u huv hun lsiu hlsiu t ht
    have huna : u ≠ a := fun h => hav (h ▸ huv)
    rcases hmid.relaxedExc u huv hun lsiu hlsiu t ht with h |
      ⟨cu, ca2, hcu, hca2, hle⟩
    · exact Or.inl h
    · right
      by_cases htA : t = a
      · subst htA
        have := hbound ca2 hca2
        refine ⟨cu, cn + 1, ?_, alookup_aset_self _ _ _, by omega⟩
        rw [alookup_aset_ne rst.node_costs t u (cn + 1) huna]
        exact hcu
      · refine ⟨cu, ca2, ?_, ?_, hle⟩
        · rw [alookup_aset_ne rst.node_costs a u (cn + 1) huna]
          exact hcu
        · rw [alookup_aset_ne rst.node_costs a t (cn + 1) htA]
          exact hca2
  · rw [alookup_aset_ne rst.node_costs a node (cn + 1) (Ne.symm hann)]
    exact hcn
  · exact ⟨cn + 1, alookup_aset_self _ _ _, le_refl _⟩
  · intro v hvv
    have hvna : v ≠ a := fun h => hav (h ▸ hvv)
    rw [alookup_aset_ne rst.node_costs a v (cn + 1) hvna]
  · intro v c hv
    by_cases hvA : v = a
    · subst hvA
      have := hbound c hv
      exact ⟨cn + 1, alookup_aset_self _ _ _, by omega⟩
    · refine ⟨c, ?_, le_refl _⟩
      rw [alookup_aset_ne rst.node_costs a v (cn + 1) hvA]
      exact hv

theorem relaxOne_inv {g : List (Node × LinkStateIndividual)} {root : Node}
    {visited : List Node} {node : Node} {cn : Nat}
    {lsi : LinkStateIndividual} (hlsi : alookup g node = some lsi)
    (hnodev : node ∈ visited) {a : Node} (ha : a ∈ lsi.neighbour_list)
    {rst : RState} (hcn : alookup rst.node_costs node = some cn)
    (hmid : MidInv g root visited node rst) :
    MidInv g root visited node (relaxOne visited (cn + 1) node rst a) ∧
    alookup (relaxOne visited (cn + 1) node rst a).node_costs node =
      some cn ∧
    (a ∈ visited ∨ ∃ ca, alookup (relaxOne visited (cn + 1) node rst
      a).node_costs a = some ca ∧ ca ≤ cn + 1) ∧
    (∀ v ∈ visited, alookup (relaxOne visited (cn + 1) node rst
      a).node_costs v = alookup rst.node_costs v) ∧
    (∀ v c, alookup rst.node_costs v = some c →
      ∃ c', alookup (relaxOne visited (cn + 1) node rst a).node_costs v =
        some c' ∧ c' ≤ c) := by
  by_cases hav : a ∈ visited
  · have hid : relaxOne visited (cn + 1) node rst a = rst := by
      simp [relaxOne, hav]
    rw [hid]
    exact ⟨hmid, hcn, Or.inl hav, fun _ _ => rfl,
      fun v c h => ⟨c, h, le_refl c⟩⟩
  · cases hca : alookup rst.node_costs a with
    | none =>
      have hid : relaxOne visited (cn + 1) node rst a =
          ⟨aset rst.parents_map a node, (cn + 1, a) :: rst.pq,
           aset rst.node_costs a (cn + 1)⟩ := by
        simp [relaxOne, hav, hca]
      rw [hid]
      obtain ⟨h1, h2, h3, h4, h5⟩ := relax_step_inv hlsi hnodev ha hcn hmid
        hav (fun cadj h => by rw [hca] at h; cases h)
      exact ⟨h1, h2, Or.inr h3, h4, h5⟩
    | some cadj =>
      by_cases hlt : cn + 1 < cadj
      · have hid : relaxOne visited (cn + 1) node rst a =
            ⟨aset rst.parents_map a node, (cn + 1, a) :: rst.pq,
             aset rst.node_costs a (cn + 1)⟩ := by
          simp [relaxOne, hav, hca, hlt]
        rw [hid]
        obtain ⟨h1, h2, h3, h4, h5⟩ := relax_step_inv hlsi hnodev ha hcn
          hmid hav (fun c h => by rw [hca] at h; cases h; exact hlt)
        exact ⟨h1, h2, Or.inr h3, h4, h5⟩
      · have hid : relaxOne visited (cn + 1) node rst a = rst := by
          simp [relaxOne, hav, hca, hlt]
        rw [hid]
        exact ⟨hmid, hcn, Or.inr ⟨cadj, hca, by omega⟩, fun _ _ => rfl,
          fun v c h => ⟨c, h, le_refl c⟩⟩

theorem relaxAll_inv {g : List (Node × LinkStateIndividual)} {root : Node}
    {visited : List Node} {node : Node} {cn : Nat}
    {lsi : LinkStateIndividual} (hlsi : alookup g node = some lsi)
    (hnodev : node ∈ visited) :
    ∀ (adjs : List Node) (rst : RState),
    (∀ a ∈ adjs, a ∈ lsi.neighbour_list) →
    alookup rst.node_costs node = some cn →
    MidInv g root visited node rst →
    MidInv g root visited node (relaxAll visited (cn + 1) node adjs rst) ∧
    alookup (relaxAll visited (cn + 1) node adjs rst).node_costs node =
      some cn ∧
    (∀ a ∈ adjs, a ∈ visited ∨ ∃ ca, alookup (relaxAll visited (cn + 1)
      node adjs rst).node_costs a = some ca ∧ ca ≤ cn + 1) ∧
    (∀ v ∈ visited, alookup (relaxAll visited (cn + 1) node adjs
      rst).node_costs v = alookup rst.node_costs v) ∧
    (∀ v c, alookup rst.node_costs v = some c →
      ∃ c', alookup (relaxAll visited (cn + 1) node adjs rst).node_costs v =
        some c' ∧ c' ≤ c) := by
  intro adjs
  induction adjs with
  | nil =>
    intro rst _ hcn hmid
    exact ⟨hmid, hcn, fun x hx => absurd hx (List.not_mem_nil x),
      fun _ _ => rfl, fun v c h => ⟨c, h, le_refl c⟩⟩
  | cons a rest ih =>
    intro rst hsub hcn hmid
    have hstep : relaxAll visited (cn + 1) node (a :: rest) rst =
        relaxAll visited (cn + 1) node rest
          (relaxOne visited (cn + 1) node rst a) := by
      simp [relaxAll]
    obtain ⟨m1, m2, m3, m4, m5⟩ := relaxOne_inv hlsi hnodev
      (hsub a (List.mem_cons_self a rest)) hcn hmid
    obtain ⟨k1, k2, k3, k4, k5⟩ := ih (relaxOne visited (cn + 1) node rst a)
      (fun x hx => hsub x (List.mem_cons_of_mem _ hx)) m2 m1
    rw [hstep]
    refine ⟨k1, k2, ?_, ?_, ?_⟩
    · intro x hx
      rcases List.mem_cons.mp hx with rfl | hx'
      · rcases m3 with h | ⟨ca, hca, hle⟩
        · exact Or.inl h
        · obtain ⟨ca', hca', hle'⟩ := k5 x ca hca
          exact Or.inr ⟨ca', hca', by omega⟩
      · exact k3 x hx'
    · intro v hv
      rw [k4 v hv, m4 v hv]
    · intro v c hv
      obtain ⟨c1, h1, le1⟩ := m5 v c hv
      obtain ⟨c2, h2, le2⟩ := k5 v c1 h1
      exact ⟨c2, h2, le_trans le2 le1⟩

theorem dloop_eq_none {g : List (Node × LinkStateIndividual)} {st : DState}
    (hp : popMin st.pq = none) : dloop g st = st := by
  rw [dloop]
  split
  · rfl
  · next e pqrest heq =>
    rw [hp] at heq
    cases heq

theorem dloop_eq_skipg {g : List (Node × LinkStateIndividual)} {st : DState}
    {e : Nat × Node} {pqrest : List (Nat × Node)}
    (hp : popMin st.pq = some (e, pqrest)) (hg : alookup g e.2 = none) :
    dloop g st =
      dloop g ⟨setAdd st.visited e.2, st.parents_map, pqrest,
        st.node_costs⟩ := by
  rw [dloop]
  split
  · next heq =>
    rw [hp] at heq
    cases heq
  · next e' pqrest' heq =>
    rw [hp] at heq
    cases heq
    split
    · rfl
    · next lsi hg' =>
      rw [hg] at hg'
      cases hg'

theorem dloop_eq_skipc {g : List (Node × LinkStateIndividual)} {st : DState}
    {e : Nat × Node} {pqrest : List (Nat × Node)}
    {lsi : LinkStateIndividual}
    (hp : popMin st.pq = some (e, pqrest)) (hg : alookup g e.2 = some lsi)
    (hc : alookup st.node_costs e.2 = none) :
    dloop g st =
      dloop g ⟨setAdd st.visited e.2, st.parents_map, pqrest,
        st.node_costs⟩ := by
  rw [dloop]
  split
  · next heq => exact Option.noConfusion (heq.symm.trans hp)
  · next e' pqrest' heq =>
    rw [hp] at heq
    cases heq
    split
    · next hg' => exact Option.noConfusion (hg'.symm.trans hg)
    · next lsi' hg' =>
      rw [hg] at hg'
      cases hg'
      split
      · rfl
      · next cn hc' => exact Option.noConfusion (hc.symm.trans hc')

theorem dloop_eq_relax {g : List (Node × LinkStateIndividual)} {st : DState}
    {e : Nat × Node} {pqrest : List (Nat × Node)}
    {lsi : LinkStateIndividual} {cn : Nat}
    (hp : popMin st.pq = some (e, pqrest)) (hg : alookup g e.2 = some lsi)
    (hc : alookup st.node_costs e.2 = some cn) :
    dloop g st =
      dloop g ⟨setAdd st.visited e.2,
        (relaxAll (setAdd st.visited e.2) (cn + 1) e.2 lsi.neighbour_list
          ⟨st.parents_map, pqrest, st.node_costs⟩).parents_map,
        (relaxAll (setAdd st.visited e.2) (cn + 1) e.2 lsi.neighbour_list
          ⟨st.parents_map, pqrest, st.node_costs⟩).pq,
        (relaxAll (setAdd st.visited e.2) (cn + 1) e.2 lsi.neighbour_list
          ⟨st.parents_map, pqrest, st.node_costs⟩).node_costs⟩ := by
  rw [dloop]
  split
  · next heq => exact Option.noConfusion (heq.symm.trans hp)
  · next e' pqrest' heq =>
    rw [hp] at heq
    cases heq
    split
    · next hg' => exact Option.noConfusion (hg'.symm.trans hg)
    · next lsi' hg' =>
      rw [hg] at hg'
      cases hg'
      split
      · next hc' => exact Option.noConfusion (hc'.symm.trans hc)
      · next cn' hc' =>
        rw [hc] at hc'
        cases hc'
        rfl

theorem dloop_pq_nil {g : List (Node × LinkStateIndividual)} :
    ∀ st : DState, (dloop g st).pq = [] := by
  intro st
  induction st using dloop.induct with
  | g => exact g
  | case1 st hp =>
    rw [dloop_eq_none hp]
    exact popMin_eq_none.mp hp
  | case2 st e pqrest hp hg ih =>
    rw [dloop_eq_skipg hp hg]
    exact ih
  | case3 st e pqrest hp lsi hg hc ih =>
    rw [dloop_eq_skipc hp hg hc]
    exact ih
  | case4 st e pqrest hp lsi hg cn hc ih =>
    rw [dloop_eq_relax hp hg hc]
    exact ih

theorem dinit {g : List (Node × LinkStateIndividual)} {root : Node} :
    DInv g root ⟨[], [], [(0, root)], [(root, 0)]⟩ := by
  refine ⟨?_, ?_, ?_, ?_, ?_, ?_, ?_, ?_, ?_⟩
  · simp [alookup]
  · intro v hv
    by_cases h : root = v
    · exact h.symm
    · simp [alookup, h] at hv
  · intro c v hcv
    simp only [List.mem_singleton, Prod.mk.injEq] at hcv
    obtain ⟨hc, hv⟩ := hcv
    subst hc
    subst hv
    exact ⟨0, by simp [alookup], le_refl 0⟩
  · intro v c hv
    by_cases h : root = v
    · subst h
      simp only [alookup, if_true] at hv
      cases hv
      exact Or.inr (List.mem_singleton.mpr rfl)
    · simp [alookup, h] at hv
  · intro v u hpu
    simp [alookup] at hpu
  · simp [alookup]
  · intro v c hv
    by_cases h : root = v
    · exact Or.inl h.symm
    · simp [alookup, h] at hv
  · intro v hv
    simp at hv
  · intro u hu
    simp at hu

theorem skip_inv {g : List (Node × LinkStateIndividual)} {root : Node}
    {st : DState} (inv : DInv g root st) {e : Nat × Node}
    {pqrest : List (Nat × Node)} (hp : popMin st.pq = some (e, pqrest))
    (hg : alookup g e.2 = none) :
    DInv g root ⟨setAdd st.visited e.2, st.parents_map, pqrest,
      st.node_costs⟩ := by
  obtain ⟨hmem, hmin, hperm⟩ := popMin_spec hp
  refine ⟨inv.root0, inv.zeroRoot, ?_, ?_, inv.parentEdge, inv.parentRoot,
    inv.hasParent, ?_, ?_⟩
  · intro c v hcv
    exact inv.entries c v (hperm.mem_iff.mpr (List.mem_cons_of_mem e hcv))
  · intro v c hv
    rcases inv.queued v c hv with h | h
    · exact Or.inl (mem_setAdd.mpr (Or.inl h))
    · rcases List.mem_cons.mp (hperm.mem_iff.mp h) with heq | hrest
      · exact Or.inl (mem_setAdd.mpr (Or.inr (congrArg Prod.snd heq)))
      · exact Or.inr hrest
  · intro v hv
    rcases mem_setAdd.mp hv with hold | rfl
    · exact inv.visitedDist v hold
    · by_cases hv2 : e.2 ∈ st.visited
      · exact inv.visitedDist e.2 hv2
      · obtain ⟨hcv, hwalk, hmin'⟩ := pop_minimal inv hp hv2
        exact ⟨e.1, hcv, hwalk, hmin'⟩
  · intro u hu lsiu hlsiu a ha
    rcases mem_setAdd.mp hu with hold | heq
    · rcases inv.relaxed u hold lsiu hlsiu a ha with h | h
      · exact Or.inl (mem_setAdd.mpr (Or.inl h))
      · exact Or.inr h
    · subst heq
      exact Option.noConfusion (hg.symm.trans hlsiu)

theorem relax_preserves {g : List (Node × LinkStateIndividual)}
    {root : Node} {st : DState} (inv : DInv g root st) {e : Nat × Node}
    {pqrest : List (Nat × Node)} {lsi : LinkStateIndividual} {cn : Nat}
    (hp : popMin st.pq = some (e, pqrest)) (hg : alookup g e.2 = some lsi)
    (hc : alookup st.node_costs e.2 = some cn) :
    DInv g root ⟨setAdd st.visited e.2,
      (relaxAll (setAdd st.visited e.2) (cn + 1) e.2 lsi.neighbour_list
        ⟨st.parents_map, pqrest, st.node_costs⟩).parents_map,
      (relaxAll (setAdd st.visited e.2) (cn + 1) e.2 lsi.neighbour_list
        ⟨st.parents_map, pqrest, st.node_costs⟩).pq,
      (relaxAll (setAdd st.visited e.2) (cn + 1) e.2 lsi.neighbour_list
        ⟨st.parents_map, pqrest, st.node_costs⟩).node_costs⟩ := by
  obtain ⟨hmem, hmin, hperm⟩ := popMin_spec hp
  have hnodev : e.2 ∈ setAdd st.visited e.2 := mem_setAdd.mpr (Or.inr rfl)
  have mid0 : MidInv g root (setAdd st.visited e.2) e.2
      ⟨st.parents_map, pqrest, st.node_costs⟩ := by
    refine ⟨inv.root0, inv.zeroRoot, ?_, ?_, inv.parentEdge, inv.parentRoot,
      inv.hasParent, ?_, ?_⟩
    · intro c v hcv
      exact inv.entries c v (hperm.mem_iff.mpr (List.mem_cons_of_mem e hcv))
    · intro v c hv
      rcases inv.queued v c hv with h | h
      · exact Or.inl (mem_setAdd.mpr (Or.inl h))
      · rcases List.mem_cons.mp (hperm.mem_iff.mp h) with heq | hrest
        · exact Or.inl (mem_setAdd.mpr (Or.inr (congrArg Prod.snd heq)))
        · exact Or.inr hrest
    · intro v hv
      rcases mem_setAdd.mp hv with hold | rfl
      · exact inv.visitedDist v hold
      · by_cases hv2 : e.2 ∈ st.visited
        · exact inv.visitedDist e.2 hv2
        · obtain ⟨hcv, hwalk, hmin'⟩ := pop_minimal inv hp hv2
          exact ⟨e.1, hcv, hwalk, hmin'⟩
    · intro u hu hune lsiu hlsiu a ha
      have hold : u ∈ st.visited := by
        rcases mem_setAdd.mp hu with h | h
        · exact h
        · exact absurd h hune
      rcases inv.relaxed u hold lsiu hlsiu a ha with h | h
      · exact Or.inl (mem_setAdd.mpr (Or.inl h))
      · exact Or.inr h
  obtain ⟨mid', hcn', hadj, hfroz, hmono⟩ := relaxAll_inv hg hnodev
    lsi.neighbour_list ⟨st.parents_map, pqrest, st.node_costs⟩
    (fun a ha => ha) hc mid0
  refine ⟨mid'.root0, mid'.zeroRoot, mid'.entries, mid'.queued,
    mid'.parentEdge, mid'.parentRoot, mid'.hasParent, mid'.visitedDist, ?_⟩
  intro u hu lsiu hlsiu a ha
  by_cases hue : u = e.2
  · subst hue
    have hlsieq : lsiu = lsi := alookup_det hlsiu hg
    subst hlsieq
    rcases hadj a ha with h | ⟨ca, hca, hle⟩
    · exact Or.inl h
    · exact Or.inr ⟨cn, ca, hcn', hca, hle⟩
  · exact mid'.relaxedExc u hu hue lsiu hlsiu a ha

theorem dloop_inv {g : List (Node × LinkStateIndividual)} {root : Node} :
    ∀ st : DState, DInv g root st → DInv g root (dloop g st) := by
  intro st
  induction st using dloop.induct with
  | g => exact g
  | case1 st hp =>
    intro inv
    rw [dloop_eq_none hp]
    exact inv
  | case2 st e pqrest hp hg ih =>
    intro inv
    rw [dloop_eq_skipg hp hg]
    exact ih (skip_inv inv hp hg)
  | case3 st e pqrest hp lsi hg hc ih =>
    intro inv
    obtain ⟨hmem, hmin, hperm⟩ := popMin_spec hp
    obtain ⟨cv, hcv, hle⟩ := inv.entries e.1 e.2 hmem
    exact Option.noConfusion (hc.symm.trans hcv)
  | case4 st e pqrest hp lsi hg cn hc ih =>
    intro inv
    rw [dloop_eq_relax hp hg hc]
    exact ih (relax_preserves inv hp hg hc)

theorem end_costed_visited {g : List (Node × LinkStateIndividual)}
    {root : Node} {st : DState} (inv : DInv g root st) (hpq : st.pq = []) :
    ∀ v c, alookup st.node_costs v = some c → v ∈ st.visited := by
  intro v c hv
  rcases inv.queued v c hv with h | h
  · exact h
  · rw [hpq] at h
    exact absurd h (List.not_mem_nil _)

theorem end_reachable_visited {g : List (Node × LinkStateIndividual)}
    {root : Node} {st : DState} (inv : DInv g root st) (hpq : st.pq = [])
    {v : Node} {n : Nat} (hw : HasWalk g root v n) : v ∈ st.visited := by
  have hrv : root ∈ st.visited := end_costed_visited inv hpq root 0 inv.root0
  rcases frontier inv hw hrv 0 inv.root0 with h | ⟨x, cx, h1, h2, h3⟩
  · exact h
  · rw [hpq] at h2
    exact absurd h2 (List.not_mem_nil _)

theorem chain_exists {g : List (Node × LinkStateIndividual)} {root : Node}
    {st : DState} (inv : DInv g root st) :
    ∀ cv v, alookup st.node_costs v = some cv → v ≠ root →
    ∃ h n, FirstHopChain st.parents_map root v h n := by
  intro cv
  induction cv using Nat.strong_induction_on with
  | _ cv ih =>
    intro v hv hvr
    rcases inv.hasParent v cv hv with hr | ⟨u, hu⟩
    · exact absurd hr hvr
    · obtain ⟨hedge, cu, cv', hcu, hcv', hle⟩ := inv.parentEdge v u hu
      have hcveq : cv = cv' := alookup_det hv hcv'
      subst hcveq
      by_cases hur : u = root
      · subst hur
        exact ⟨v, 0, FirstHopChain.base hu⟩
      · obtain ⟨h, n, hchain⟩ := ih cu (by omega) u hcu hur
        exact ⟨h, n + 1, FirstHopChain.step hu hur hchain⟩

theorem chain_cost {g : List (Node × LinkStateIndividual)} {root : Node}
    {st : DState} (inv : DInv g root st) :
    ∀ {v h n}, FirstHopChain st.parents_map root v h n →
    ∀ cv, alookup st.node_costs v = some cv → n + 1 ≤ cv := by
  intro v h n hchain
  induction hchain with
  | base hpar =>
    intro cv hcv
    obtain ⟨hedge, cu, cv', hcu, hcv', hle⟩ := inv.parentEdge _ _ hpar
    have h0 : cu = 0 := alookup_det hcu inv.root0
    have h1 : cv = cv' := alookup_det hcv hcv'
    omega
  | step hpar hur hrest ih =>
    intro cv hcv
    obtain ⟨hedge, cu, cv', hcu, hcv', hle⟩ := inv.parentEdge _ _ hpar
    have h1 := ih cu hcu
    have h2 : cv = cv' := alookup_det hcv hcv'
    omega

theorem chain_unique {parents : List (Node × Node)} {root : Node} :
    ∀ {v h n}, FirstHopChain parents root v h n →
    ∀ {h' n'}, FirstHopChain parents root v h' n' → h = h' ∧ n = n' := by
  intro v h n hchain
  induction hchain with
  | base hpar =>
    intro h' n' hchain'
    cases hchain' with
    | base hpar' => exact ⟨rfl, rfl⟩
    | step hpar' hur' hrest' =>
      have heq := alookup_det hpar hpar'
      exact absurd heq.symm hur'
  | step hpar hur hrest ih =>
    intro h' n' hchain'
    cases hchain' with
    | base hpar' =>
      have heq := alookup_det hpar hpar'
      exact absurd heq hur
    | step hpar' hur' hrest' =>
      have heq := alookup_det hpar hpar'
      subst heq
      obtain ⟨hh, hn⟩ := ih hrest'
      exact ⟨hh, by omega⟩

theorem chain_base {parents : List (Node × Node)} {root : Node} :
    ∀ {v h n}, FirstHopChain parents root v h n →
    alookup parents h = some root := by
  intro v h n hchain
  induction hchain with
  | base hpar => exact hpar
  | step _ _ _ ih => exact ih

theorem chain_nodes {g : List (Node × LinkStateIndividual)} {root : Node}
    {st : DState} (inv : DInv g root st) :
    ∀ {v h n}, FirstHopChain st.parents_map root v h n →
    ∀ cv, alookup st.node_costs v = some cv →
    ∃ L : List Node, L.length = n + 1 ∧ L.Nodup ∧
      (∀ x ∈ L, (alookup st.parents_map x).isSome) ∧
      (∀ x ∈ L, ∃ cx, alookup st.node_costs x = some cx ∧ cx ≤ cv) := by
  intro v h n hchain
  induction hchain with
  | @base v hpar =>
    intro cv hcv
    refine ⟨[v], rfl, List.nodup_singleton v, ?_, ?_⟩
    · intro x hx
      rw [List.mem_singleton] at hx
      subst hx
      simp [hpar]
    · intro x hx
      rw [List.mem_singleton] at hx
      subst hx
      exact ⟨cv, hcv, le_refl cv⟩
  | @step v u h n hpar hur hrest ih =>
    intro cv hcv
    obtain ⟨hedge, cu, cv', hcu, hcv', hle⟩ := inv.parentEdge v u hpar
    have hcveq : cv = cv' := alookup_det hcv hcv'
    subst hcveq
    obtain ⟨L, hlen, hnodup, hkeys, hcosts⟩ := ih cu hcu
    refine ⟨v :: L, by simp [hlen], ?_, ?_, ?_⟩
    · rw [List.nodup_cons]
      refine ⟨?_, hnodup⟩
      intro hvL
      obtain ⟨cx, hcx, hcxle⟩ := hcosts v hvL
      have hx : cx = cv := alookup_det hcx hcv
      omega
    · intro x hx
      rcases List.mem_cons.mp hx with rfl | hx'
      · simp [hpar]
      · exact hkeys x hx'
    · intro x hx
      rcases List.mem_cons.mp hx with rfl | hx'
      · exact ⟨cv, hcv, le_refl cv⟩
      · obtain ⟨cx, hcx, hcxle⟩ := hcosts x hx'
        exact ⟨cx, hcx, by omega⟩

theorem fuel_bound {g : List (Node × LinkStateIndividual)} {root : Node}
    {st : DState} (inv : DInv g root st) {v h : Node} {n : Nat}
    (hchain : FirstHopChain st.parents_map root v h n) {cv : Nat}
    (hcv : alookup st.node_costs v = some cv) :
    n + 1 ≤ st.parents_map.length := by
  obtain ⟨L, hlen, hnodup, hkeys, _⟩ := chain_nodes inv hchain cv hcv
  have hsub : L ⊆ st.parents_map.map Prod.fst := by
    intro x hx
    obtain ⟨b, hb⟩ := Option.isSome_iff_exists.mp (hkeys x hx)
    exact alookup_mem_keys hb
  have h2 := List.Subperm.length_le (hnodup.subperm hsub)
  rw [hlen, List.length_map] at h2
  exact h2

theorem isWalk_append_edge {g : List (Node × LinkStateIndividual)} :
    ∀ {l : List Node} {u v : Node}, IsWalk g l → l.getLast? = some u →
    edgeG g u v → IsWalk g (l ++ [v]) := by
  intro l u v hw
  induction hw with
  | single w =>
    intro hl he
    simp only [List.getLast?_singleton, Option.some.injEq] at hl
    subst hl
    exact IsWalk.cons he (IsWalk.single v)
  | @cons a b rest hedge hw' ih =>
    intro hl he
    rw [List.getLast?_cons_cons] at hl
    exact IsWalk.cons hedge (ih hl he)

theorem isWalk_to_hasWalk {g : List (Node × LinkStateIndividual)} :
    ∀ {l : List Node}, IsWalk g l → ∀ {x : Node} {rest : List Node},
    l = x :: rest → ∀ {y : Node}, l.getLast? = some y →
    HasWalk g x y rest.length := by
  intro l hw
  induction hw with
  | single w =>
    intro x rest heq y hl
    cases heq
    simp only [List.getLast?_singleton, Option.some.injEq] at hl
    subst hl
    exact HasWalk.refl _
  | @cons a b rest' hedge hw' ih =>
    intro x rest heq y hl
    cases heq
    rw [List.getLast?_cons_cons] at hl
    exact HasWalk.cons hedge (ih rfl hl)

theorem chain_to_walk {g : List (Node × LinkStateIndividual)} {root : Node}
    {st : DState} (inv : DInv g root st) :
    ∀ {v h : Node} {n : Nat}, FirstHopChain st.parents_map root v h n →
    ∃ p : List Node, IsWalk g (root :: h :: p) ∧
      (root :: h :: p).getLast? = some v ∧ (h :: p).length = n + 1 := by
  intro v h n hchain
  induction hchain with
  | @base v hpar =>
    obtain ⟨hedge, _⟩ := inv.parentEdge v root hpar
    exact ⟨[], IsWalk.cons hedge (IsWalk.single v), by simp, rfl⟩
  | @step v u h n hpar hur hrest ih =>
    obtain ⟨hedge, _⟩ := inv.parentEdge v u hpar
    obtain ⟨p, hwalk, hlast, hlen⟩ := ih
    refine ⟨p ++ [v], isWalk_append_edge hwalk hlast hedge, ?_, ?_⟩
    · show ((root :: h :: p) ++ [v]).getLast? = some v
      exact List.getLast?_concat _
    · show ((h :: p) ++ [v]).length = (n + 1) + 1
      rw [List.length_append, hlen]
      rfl

theorem alookup_aset_isSome {α β : Type} [DecidableEq α]
    {l : List (α × β)} {x a : α} {b : β}
    (h : (alookup l x).isSome = true) :
    (alookup (aset l a b) x).isSome = true := by
  by_cases hxa : x = a
  · subst hxa
    rw [alookup_aset_self]
    rfl
  · rw [alookup_aset_ne l a x b hxa]
    exact h

theorem sft_spec {parents : List (Node × Node)} {root : Node}
    (hroot : alookup parents root = none) :
    ∀ {n : Nat} {v h : Node}, FirstHopChain parents root v h n →
    ∀ fuel table, n < fuel → tableOK parents root table →
    ∃ t', set_forwarding_table parents root fuel table v = some (t', h) ∧
      tableOK parents root t' ∧
      (∀ x, (alookup table x).isSome = true →
        (alookup t' x).isSome = true) := by
  intro n v h hchain
  induction hchain with
  | @base v hpar =>
    intro fuel table hfuel hok
    cases fuel with
    | zero => omega
    | succ f =>
      have htr : alookup table root = none := by
        cases htr' : alookup table root with
        | none => rfl
        | some hop =>
          obtain ⟨m, hchain'⟩ := hok root hop htr'
          cases hchain' with
          | base hpar' => exact Option.noConfusion (hroot.symm.trans hpar')
          | step hpar' hur' hrest' =>
            exact Option.noConfusion (hroot.symm.trans hpar')
      refine ⟨table, ?_, hok, fun x hx => hx⟩
      simp [set_forwarding_table, hpar, htr]
  | @step v u h n hpar hur hrest ih =>
    intro fuel table hfuel hok
    cases fuel with
    | zero => omega
    | succ f =>
      cases htu : alookup table u with
      | some hop =>
        obtain ⟨m, hchain'⟩ := hok u hop htu
        obtain ⟨hh, hm⟩ := chain_unique hrest hchain'
        subst hh
        refine ⟨aset table v h, ?_, ?_, ?_⟩
        · simp [set_forwarding_table, hpar, htu]
        · intro w hw hlw
          by_cases hwv : w = v
          · subst hwv
            rw [alookup_aset_self] at hlw
            cases hlw
            exact ⟨n + 1, FirstHopChain.step hpar hur hrest⟩
          · rw [alookup_aset_ne table v w h hwv] at hlw
            exact hok w hw hlw
        · intro x hx
          exact alookup_aset_isSome hx
      | none =>
        obtain ⟨t', hrec, hok', hpres⟩ := ih f table (by omega) hok
        refine ⟨aset t' v h, ?_, ?_, ?_⟩
        · simp [set_forwarding_table, hpar, htu, hur, hrec]
        · intro w hw hlw
          by_cases hwv : w = v
          · subst hwv
            rw [alookup_aset_self] at hlw
            cases hlw
            exact ⟨n + 1, FirstHopChain.step hpar hur hrest⟩
          · rw [alookup_aset_ne t' v w h hwv] at hlw
            exact hok' w hw hlw
        · intro x hx
          exact alookup_aset_isSome (hpres x hx)

theorem build_fold_spec {parents : List (Node × Node)} {root : Node}
    (hroot : alookup parents root = none) {fuel : Nat} :
    ∀ (vl : List Node) (table : List (Node × Node)),
    (∀ v ∈ vl, v ≠ root →
      ∃ h n, FirstHopChain parents root v h n ∧ n < fuel) →
    tableOK parents root table →
    ∃ tf, build_fold parents root fuel table vl = some tf ∧
      tableOK parents root tf ∧
      (∀ x, (alookup table x).isSome = true →
        (alookup tf x).isSome = true) ∧
      (∀ v ∈ vl, v ≠ root → (alookup tf v).isSome = true) := by
  intro vl
  induction vl with
  | nil =>
    intro table hvl hok
    exact ⟨table, rfl, hok, fun x hx => hx,
      fun v hv _ => absurd hv (List.not_mem_nil v)⟩
  | cons m rest ih =>
    intro table hvl hok
    by_cases hmr : m = root
    · subst hmr
      obtain ⟨tf, hbf, hok', hpres, hmem⟩ := ih table
        (fun v hv => hvl v (List.mem_cons_of_mem _ hv)) hok
      refine ⟨tf, ?_, hok', hpres, ?_⟩
      · simp [build_fold, hbf]
      · intro v hv hne
        rcases List.mem_cons.mp hv with rfl | hv'
        · exact absurd rfl hne
        · exact hmem v hv' hne
    · obtain ⟨h, n, hchain, hn⟩ := hvl m (List.mem_cons_self m rest) hmr
      obtain ⟨t', hsft, hok', hpres⟩ := sft_spec hroot hchain fuel table hn hok
      have hok2 : tableOK parents root (aset t' m h) := by
        intro w hw hlw
        by_cases hwm : w = m
        · subst hwm
          rw [alookup_aset_self] at hlw
          cases hlw
          exact ⟨n, hchain⟩
        · rw [alookup_aset_ne t' m w h hwm] at hlw
          exact hok' w hw hlw
      obtain ⟨tf, hbf, hokf, hpresf, hmemf⟩ := ih (aset t' m h)
        (fun v hv => hvl v (List.mem_cons_of_mem _ hv)) hok2
      refine ⟨tf, ?_, hokf, ?_, ?_⟩
      · simp [build_fold, hmr, hsft, hbf]
      · intro x hx
        exact hpresf x (alookup_aset_isSome (hpres x hx))
      · intro v hv hne
        rcases List.mem_cons.mp hv with rfl | hv'
        · have h1 : (alookup (aset t' v h) v).isSome = true := by
            rw [alookup_aset_self]
            rfl
          exact hpresf v h1
        · exact hmemf v hv' hne

/-- **C6.**  `build_forward_table` computes, for every destination
reachable from the local node, a forwarding-table entry that is a
neighbour of the local node and is the first node after the root on a
shortest unit-weight path to that destination; when the local node is
absent from the link-state map the call succeeds with an empty table. -/
theorem c6_first_hop_shortest_path (g : LinkGraph) :
    (alookup g.link_state_map g.starting_node = none →
      g.build_forward_table = some { g with forwarding_table := [] }) ∧
    (∀ dst : Node, dst ≠ g.starting_node →
      (∃ m, HasWalk g.link_state_map g.starting_node dst m) →
      ∃ g', g.build_forward_table = some g' ∧
        ∃ hop p, alookup g'.forwarding_table dst = some hop ∧
          edgeG g.link_state_map g.starting_node hop ∧
          IsWalk g.link_state_map (g.starting_node :: hop :: p) ∧
          (g.starting_node :: hop :: p).getLast? = some dst ∧
          ∀ m, HasWalk g.link_state_map g.starting_node dst m →
            (hop :: p).length ≤ m) := by
  constructor
  · intro hroot
    have hp0 : popMin ([(0, g.starting_node)] : List (Nat × Node)) =
        some ((0, g.starting_node), []) := by
      simp [popMin, minEntry, removeFirst]
    have h1 : dloop g.link_state_map
        ⟨[], [], [(0, g.starting_node)], [(g.starting_node, 0)]⟩ =
        dloop g.link_state_map
          ⟨setAdd ([] : List Node) g.starting_node, [], [],
           [(g.starting_node, 0)]⟩ :=
      @dloop_eq_skipg g.link_state_map
        ⟨[], [], [(0, g.starting_node)], [(g.starting_node, 0)]⟩
        (0, g.starting_node) [] hp0 hroot
    have h2 : dloop g.link_state_map
        ⟨setAdd ([] : List Node) g.starting_node, [], [],
         [(g.starting_node, 0)]⟩ =
        ⟨setAdd ([] : List Node) g.starting_node, [], [],
         [(g.starting_node, 0)]⟩ :=
      @dloop_eq_none g.link_state_map
        ⟨setAdd ([] : List Node) g.starting_node, [], [],
         [(g.starting_node, 0)]⟩ rfl
    have hdij : dijkstra g.link_state_map g.starting_node =
        ([], setAdd ([] : List Node) g.starting_node) := by
      have h0 : dijkstra g.link_state_map g.starting_node =
          ((dloop g.link_state_map
            ⟨[], [], [(0, g.starting_node)], [(g.starting_node, 0)]⟩).parents_map,
           (dloop g.link_state_map
            ⟨[], [], [(0, g.starting_node)], [(g.starting_node, 0)]⟩).visited) :=
        rfl
      rw [h0, h1, h2]
    simp [LinkGraph.build_forward_table, hdij, build_fold, setAdd]
  · intro dst hne hreach
    obtain ⟨m, hwalk⟩ := hreach
    have inv : DInv g.link_state_map g.starting_node
        (dloop g.link_state_map
          ⟨[], [], [(0, g.starting_node)], [(g.starting_node, 0)]⟩) :=
      dloop_inv ⟨[], [], [(0, g.starting_node)], [(g.starting_node, 0)]⟩ dinit
    have hpq := @dloop_pq_nil g.link_state_map
      ⟨[], [], [(0, g.starting_node)], [(g.starting_node, 0)]⟩
    have hdstv := end_reachable_visited inv hpq hwalk
    obtain ⟨cv, hcv, hwalkv, hmin⟩ := inv.visitedDist dst hdstv
    have hok0 : tableOK (dloop g.link_state_map
        ⟨[], [], [(0, g.starting_node)], [(g.starting_node, 0)]⟩).parents_map
        g.starting_node [] := by
      intro w hw hlw
      exact absurd hlw (by simp [alookup])
    have hvl : ∀ v ∈ (dloop g.link_state_map
        ⟨[], [], [(0, g.starting_node)], [(g.starting_node, 0)]⟩).visited,
        v ≠ g.starting_node →
        ∃ h n, FirstHopChain (dloop g.link_state_map
          ⟨[], [], [(0, g.starting_node)],
           [(g.starting_node, 0)]⟩).parents_map g.starting_node v h n ∧
          n < (dloop g.link_state_map
            ⟨[], [], [(0, g.starting_node)],
             [(g.starting_node, 0)]⟩).parents_map.length + 1 := by
      intro v hv hvne
      obtain ⟨cv', hcv', _, _⟩ := inv.visitedDist v hv
      obtain ⟨h', n', hch⟩ := chain_exists inv cv' v hcv' hvne
      have hb := fuel_bound inv hch hcv'
      exact ⟨h', n', hch, by omega⟩
    obtain ⟨tf, hbf, hokf, hpresf, hmemf⟩ :=
      build_fold_spec inv.parentRoot
        (dloop g.link_state_map
          ⟨[], [], [(0, g.starting_node)], [(g.starting_node, 0)]⟩).visited
        [] hvl hok0
    have hbft : g.build_forward_table =
        some { g with forwarding_table := tf } := by
      have hdij2 : dijkstra g.link_state_map g.starting_node =
          ((dloop g.link_state_map
            ⟨[], [], [(0, g.starting_node)], [(g.starting_node, 0)]⟩).parents_map,
           (dloop g.link_state_map
            ⟨[], [], [(0, g.starting_node)], [(g.starting_node, 0)]⟩).visited) :=
        rfl
      simp [LinkGraph.build_forward_table, hdij2, hbf]
    refine ⟨{ g with forwarding_table := tf }, hbft, ?_⟩
    obtain ⟨hop, hhop⟩ :=
      Option.isSome_iff_exists.mp (hmemf dst hdstv hne)
    obtain ⟨n', hchain'⟩ := hokf dst hop hhop
    obtain ⟨hedge, _⟩ :=
      inv.parentEdge hop g.starting_node (chain_base hchain')
    obtain ⟨p, hwalkp, hlastp, hlenp⟩ := chain_to_walk inv hchain'
    have hhw : HasWalk g.link_state_map g.starting_node dst
        (hop :: p).length :=
      isWalk_to_hasWalk hwalkp rfl hlastp
    have hcost := chain_cost inv hchain' cv hcv
    have hup : cv ≤ (hop :: p).length := hmin _ hhw
    refine ⟨hop, p, hhop, hedge, hwalkp, hlastp, ?_⟩
    intro k hk
    have := hmin k hk
    omega

/-- Witness for C6: at a topology missing the local node `(1, 1)` the
table is built empty, and at the one-edge topology `(1, 1) → (2, 2)` the
reachable destination `(2, 2)` gets a first-hop entry on a shortest
path. -/
theorem c6_first_hop_shortest_path_witness :
    (LinkGraph.build_forward_table ⟨(1, 1), [], []⟩ =
      some ⟨(1, 1), [], []⟩) ∧
    (∃ g', LinkGraph.build_forward_table
        ⟨(1, 1), [((1, 1), ⟨0, 1, 1, [(2, 2)]⟩)], []⟩ = some g' ∧
      ∃ hop p, alookup g'.forwarding_table (2, 2) = some hop ∧
        edgeG [((1, 1), ⟨0, 1, 1, [(2, 2)]⟩)] (1, 1) hop ∧
        IsWalk [((1, 1), ⟨0, 1, 1, [(2, 2)]⟩)] ((1, 1) :: hop :: p) ∧
        ((1, 1) :: hop :: p).getLast? = some (2, 2) ∧
        ∀ m, HasWalk [((1, 1), ⟨0, 1, 1, [(2, 2)]⟩)] (1, 1) (2, 2) m →
          (hop :: p).length ≤ m) :=
  ⟨(c6_first_hop_shortest_path ⟨(1, 1), [], []⟩).1 rfl,
   (c6_first_hop_shortest_path
       ⟨(1, 1), [((1, 1), ⟨0, 1, 1, [(2, 2)]⟩)], []⟩).2
     (2, 2) (by decide)
     ⟨1, HasWalk.cons ⟨⟨0, 1, 1, [(2, 2)]⟩, by decide, by decide⟩
       (HasWalk.refl _)⟩⟩

end Lab3

end CS640
